import Mathlib

set_option maxHeartbeats 1600000
set_option maxRecDepth 8192
set_option linter.unusedVariables false

namespace The1Note

/-! ## Character classes used by the regex-based cleanup in the handlers

`isWsChar` models the JavaScript regex class `\s` (ASCII whitespace plus the
Unicode space separators); in every place the repository applies it the string
has already been restricted to ASCII. -/

def isWsChar (c : Char) : Bool :=
  [0x20, 0x09, 0x0A, 0x0B, 0x0C, 0x0D, 0xA0, 0x1680, 0x2028, 0x2029,
    0x202F, 0x205F, 0x3000, 0xFEFF].contains c.toNat ||
  (0x2000 <= c.toNat && c.toNat <= 0x200A)

/-- The escape letters of the PDF cleanup regex `\\[nrtbf]` in process-notes. -/
def isEscLetter (c : Char) : Bool :=
  c == 'n' || c == 'r' || c == 't' || c == 'b' || c == 'f'

/-- Printable ASCII, the byte range `32..126` tested by the PDF scanner. -/
def isPrintable (c : Char) : Bool :=
  32 ≤ c.toNat && c.toNat ≤ 126

mutual

/-- The whitespace-run collapse `.replace(/\\s+/g, " ")`: `collapseWs` scans
outside a run; `skipWsThen` consumes the rest of a run whose first character
was already replaced by the single space. -/
def collapseWs : List Char → List Char
  | [] => []
  | c :: cs => if isWsChar c then ' ' :: skipWsThen cs else c :: collapseWs cs

/-- See `collapseWs`. -/
def skipWsThen : List Char → List Char
  | [] => []
  | c :: cs => if isWsChar c then skipWsThen cs else c :: collapseWs cs

end

/-- Drop trailing whitespace (the right half of `String.prototype.trim`). -/
def dropTrailWs (l : List Char) : List Char :=
  ((l.reverse.dropWhile fun c => isWsChar c)).reverse

/-- `.trim()`: drop leading and trailing whitespace. -/
def trimWs (l : List Char) : List Char :=
  dropTrailWs (l.dropWhile fun c => isWsChar c)

/-- `.replace(/\\[nrtbf]/g, " ")`: each two-character escape becomes a space. -/
def replEsc : List Char → List Char
  | '\\' :: c :: rest =>
    if isEscLetter c then ' ' :: replEsc rest else '\\' :: replEsc (c :: rest)
  | c :: rest => c :: replEsc rest
  | [] => []

/-- The whole PDF-branch cleanup chain of process-notes:
`.replace(/\\[nrtbf]/g, " ").replace(/\s+/g, " ").trim()`. -/
def cleanupPdf (l : List Char) : List Char :=
  trimWs (collapseWs (replEsc l))

/-- `true` when the list never holds two consecutive spaces. -/
def noTwoSpaces : List Char → Bool
  | c :: d :: rest => !(c == ' ' && d == ' ') && noTwoSpaces (d :: rest)
  | _ => true

/-! ## The PDF byte scanner of the process-notes handler

Loop state of `for (let i = 0; i < bytes.length - 1; i++)` in the PDF branch:
`parenDepth` is a JavaScript number that may go negative, `currentText` the run
being collected, `textContent` the flushed runs (each with a trailing space). -/

structure PdfState where
  parenDepth : Int
  currentText : List Char
  textContent : List Char

/-- One iteration of the PDF extraction loop body. -/
def pdfStep (s : PdfState) (b : Nat) : PdfState :=
  if b = 40 then
    let d := s.parenDepth + 1
    { parenDepth := d
      currentText := if d = 1 then [] else s.currentText
      textContent := s.textContent }
  else if b = 41 then
    let d := s.parenDepth - 1
    if d = 0 ∧ 0 < s.currentText.length then
      { parenDepth := d
        currentText := s.currentText
        textContent := s.textContent ++ s.currentText ++ [' '] }
    else
      { parenDepth := d
        currentText := s.currentText
        textContent := s.textContent }
  else if 0 < s.parenDepth ∧ 32 ≤ b ∧ b ≤ 126 then
    { parenDepth := s.parenDepth
      currentText := s.currentText ++ [Char.ofNat b]
      textContent := s.textContent }
  else s

/-- `textContent` after the loop, which visits all bytes but the last. -/
def pdfScanText (bytes : List Nat) : List Char :=
  (bytes.dropLast.foldl pdfStep ⟨0, [], []⟩).textContent

/-- `extractedText` of the PDF branch: the scanned text after cleanup. -/
def pdfExtract (bytes : List Nat) : List Char :=
  cleanupPdf (pdfScanText bytes)

/-! Region-shaped description of the same scan, used to state claim C1.

`claimOutside`/`claimInside` follow the claim's words exactly: every byte of
the file is scanned, a region runs from a 0-to-1 depth transition until depth
returns to 0, and every byte 32..126 strictly inside the region — parentheses
included — is collected.  `regionsOutside`/`regionsInside` are the amended
description: the final byte is not scanned and bytes 40/41 are never
collected.  `k` encodes depth `k + 1` while inside a region. -/

mutual

def claimOutside : List Nat → Int → List (List Char)
  | [], _ => []
  | b :: bs, d =>
    if b = 40 then (if d = 0 then claimInside bs 0 [] else claimOutside bs (d + 1))
    else if b = 41 then claimOutside bs (d - 1)
    else claimOutside bs d

def claimInside : List Nat → Nat → List Char → List (List Char)
  | [], _, _ => []
  | b :: bs, k, acc =>
    if b = 40 then claimInside bs (k + 1) (acc ++ ['('])
    else if b = 41 then
      match k with
      | 0 => if acc.isEmpty then claimOutside bs 0 else acc :: claimOutside bs 0
      | k' + 1 => claimInside bs k' (acc ++ [')'])
    else if 32 ≤ b ∧ b ≤ 126 then claimInside bs k (acc ++ [Char.ofNat b])
    else claimInside bs k acc

end

mutual

def regionsOutside : List Nat → Int → List (List Char)
  | [], _ => []
  | b :: bs, d =>
    if b = 40 then (if d = 0 then regionsInside bs 0 [] else regionsOutside bs (d + 1))
    else if b = 41 then regionsOutside bs (d - 1)
    else regionsOutside bs d

def regionsInside : List Nat → Nat → List Char → List (List Char)
  | [], _, _ => []
  | b :: bs, k, acc =>
    if b = 40 then regionsInside bs (k + 1) acc
    else if b = 41 then
      match k with
      | 0 => if acc.isEmpty then regionsOutside bs 0 else acc :: regionsOutside bs 0
      | k' + 1 => regionsInside bs k' acc
    else if 32 ≤ b ∧ b ≤ 126 then regionsInside bs k (acc ++ [Char.ofNat b])
    else regionsInside bs k acc

end

/-- Collected runs joined by single separating spaces. -/
def joinSp : List (List Char) → List Char
  | [] => []
  | [r] => r
  | r :: rs => r ++ ' ' :: joinSp rs

/-- Claim C1 read literally: collect whole-file regions, join the non-empty
runs with single spaces, then run the same cleanup chain. -/
def pdfClaimExtract (bytes : List Nat) : List Char :=
  cleanupPdf (joinSp (claimOutside bytes 0))

/-- The amended description of the PDF extraction. -/
def pdfAmendedExtract (bytes : List Nat) : List Char :=
  cleanupPdf (joinSp (regionsOutside bytes.dropLast 0))

/-- Runs joined the way the loop builds `textContent`: a space after each. -/
def joinTrail (rs : List (List Char)) : List Char :=
  (rs.map (fun r => r ++ [' '])).flatten

/-! ## Cleanup-chain lemmas -/

lemma isWsChar_space : isWsChar ' ' = true := by decide

lemma replEsc_append_space : ∀ x, replEsc (x ++ [' ']) = replEsc x ++ [' '] := by
  intro x
  induction x using replEsc.induct with
  | case1 c rest hesc ih => simp [replEsc, hesc, ih]
  | case2 c rest hesc ih => simpa [replEsc, hesc] using ih
  | case3 c rest hshape ih =>
    by_cases hc : c = '\\'
    · subst hc
      have hrest : rest = [] := by
        cases rest with
        | nil => rfl
        | cons a as => exact absurd rfl (fun h => hshape a as rfl h)
      subst hrest
      decide
    · rw [List.cons_append, replEsc, replEsc, ih]
      all_goals first
        | rfl
        | exact fun c1 r1 hcc _ => hc hcc
  | case4 => simp [replEsc]

lemma cws_append_space (w : List Char) :
    (collapseWs (w ++ [' ']) = collapseWs w ++ [' '] ∨
      collapseWs (w ++ [' ']) = collapseWs w) ∧
    (skipWsThen (w ++ [' ']) = skipWsThen w ++ [' '] ∨
      skipWsThen (w ++ [' ']) = skipWsThen w) := by
  induction w with
  | nil =>
    constructor
    · left; simp [collapseWs, skipWsThen, isWsChar_space]
    · right; simp [skipWsThen, isWsChar_space]
  | cons c cs ih =>
    constructor
    · by_cases h : isWsChar c = true
      · rcases ih.2 with h2 | h2
        · left; simp [collapseWs, h, h2]
        · right; simp [collapseWs, h, h2]
      · rcases ih.1 with h1 | h1
        · left; simp [collapseWs, h, h1]
        · right; simp [collapseWs, h, h1]
    · by_cases h : isWsChar c = true
      · rcases ih.2 with h2 | h2
        · left; simp [skipWsThen, h, h2]
        · right; simp [skipWsThen, h, h2]
      · rcases ih.1 with h1 | h1
        · left; simp [skipWsThen, h, h1]
        · right; simp [skipWsThen, h, h1]

lemma dropTrailWs_append_space (y : List Char) : dropTrailWs (y ++ [' ']) = dropTrailWs y := by
  unfold dropTrailWs
  rw [List.reverse_append, List.reverse_singleton, List.singleton_append,
    List.dropWhile_cons_of_pos isWsChar_space]

lemma trimWs_append_space (z : List Char) : trimWs (z ++ [' ']) = trimWs z := by
  unfold trimWs
  rw [List.dropWhile_append]
  by_cases h : (z.dropWhile fun c => isWsChar c).isEmpty
  · simp only [h, if_true]
    rw [List.isEmpty_iff] at h
    rw [h]
    rw [List.dropWhile_cons_of_pos isWsChar_space]
    simp [dropTrailWs]
  · simp only [h, if_false]
    exact dropTrailWs_append_space _

lemma cleanupPdf_append_space (x : List Char) : cleanupPdf (x ++ [' ']) = cleanupPdf x := by
  unfold cleanupPdf
  rw [replEsc_append_space]
  rcases (cws_append_space (replEsc x)).1 with h | h
  · rw [h, trimWs_append_space]
  · rw [h]

lemma joinTrail_nil : joinTrail [] = [] := rfl

lemma joinTrail_cons (r : List Char) (rs : List (List Char)) :
    joinTrail (r :: rs) = r ++ [' '] ++ joinTrail rs := by
  simp [joinTrail]

lemma joinSp_cons2 (r r2 : List Char) (rs : List (List Char)) :
    joinSp (r :: r2 :: rs) = r ++ ' ' :: joinSp (r2 :: rs) := rfl

lemma joinTrail_eq_joinSp (r : List Char) (rs : List (List Char)) :
    joinTrail (r :: rs) = joinSp (r :: rs) ++ [' '] := by
  induction rs generalizing r with
  | nil => simp [joinTrail, joinSp]
  | cons r2 rs ih =>
    rw [joinTrail_cons, ih r2, joinSp_cons2]
    simp

lemma cleanup_joinTrail_eq_joinSp (rs : List (List Char)) :
    cleanupPdf (joinTrail rs) = cleanupPdf (joinSp rs) := by
  cases rs with
  | nil => rfl
  | cons r rs => rw [joinTrail_eq_joinSp, cleanupPdf_append_space]

/-! ## The scan loop computes the region decomposition -/

lemma pdfStep_open (s : PdfState) :
    pdfStep s 40 =
      ⟨s.parenDepth + 1, if s.parenDepth + 1 = 1 then [] else s.currentText,
        s.textContent⟩ := by
  simp [pdfStep]

lemma pdfStep_close_flush (s : PdfState) (h : s.parenDepth = 1) (hc : s.currentText ≠ []) :
    pdfStep s 41 = ⟨0, s.currentText, s.textContent ++ s.currentText ++ [' ']⟩ := by
  have hl : 0 < s.currentText.length := List.length_pos.mpr hc
  simp [pdfStep, h, hl]

lemma pdfStep_close_noflush (s : PdfState)
    (h : ¬ (s.parenDepth = 1 ∧ s.currentText ≠ [])) :
    pdfStep s 41 = ⟨s.parenDepth - 1, s.currentText, s.textContent⟩ := by
  by_cases h1 : s.parenDepth = 1
  · have hc : s.currentText = [] := by
      by_contra hcc
      exact h ⟨h1, hcc⟩
    simp [pdfStep, h1, hc]
  · have : ¬ (s.parenDepth - 1 = 0) := by omega
    simp [pdfStep, this]

lemma pdfStep_collect (s : PdfState) (b : Nat) (h40 : b ≠ 40) (h41 : b ≠ 41)
    (hd : 0 < s.parenDepth) (hr : 32 ≤ b ∧ b ≤ 126) :
    pdfStep s b = ⟨s.parenDepth, s.currentText ++ [Char.ofNat b], s.textContent⟩ := by
  simp [pdfStep, h40, h41, hd, hr.1, hr.2]

lemma pdfStep_skip (s : PdfState) (b : Nat) (h40 : b ≠ 40) (h41 : b ≠ 41)
    (h : ¬ (0 < s.parenDepth ∧ 32 ≤ b ∧ b ≤ 126)) :
    pdfStep s b = s := by
  simp [pdfStep, h40, h41, h]

lemma pdfFold_spec (bs : List Nat) :
    (∀ (d : Int) (cur txt : List Char), d ≤ 0 →
      (bs.foldl pdfStep ⟨d, cur, txt⟩).textContent =
        txt ++ joinTrail (regionsOutside bs d)) ∧
    (∀ (k : Nat) (cur txt : List Char),
      (bs.foldl pdfStep ⟨(k : Int) + 1, cur, txt⟩).textContent =
        txt ++ joinTrail (regionsInside bs k cur)) := by
  induction bs with
  | nil =>
    constructor
    · intro d cur txt _
      simp [regionsOutside, joinTrail]
    · intro k cur txt
      simp [regionsInside, joinTrail]
  | cons b bs ih =>
    constructor
    · intro d cur txt hd
      rw [List.foldl_cons]
      by_cases h40 : b = 40
      · subst h40
        rw [pdfStep_open]
        by_cases hd0 : d = 0
        · subst hd0
          rw [show regionsOutside (40 :: bs) 0 = regionsInside bs 0 [] from by
            simp [regionsOutside]]
          rw [if_pos (by norm_num)]
          simpa using ih.2 0 [] txt
        · have h1 : ¬ (d + 1 = 1) := by omega
          rw [if_neg h1]
          rw [show regionsOutside (40 :: bs) d = regionsOutside bs (d + 1) from by
            simp [regionsOutside, hd0]]
          exact ih.1 (d + 1) cur txt (by omega)
      · by_cases h41 : b = 41
        · subst h41
          rw [pdfStep_close_noflush _ (by simp; omega)]
          rw [show regionsOutside (41 :: bs) d = regionsOutside bs (d - 1) from by
            simp [regionsOutside]]
          exact ih.1 (d - 1) cur txt (by omega)
        · rw [pdfStep_skip _ _ h40 h41 (by simp; omega)]
          rw [show regionsOutside (b :: bs) d = regionsOutside bs d from by
            simp [regionsOutside, h40, h41]]
          exact ih.1 d cur txt hd
    · intro k cur txt
      rw [List.foldl_cons]
      by_cases h40 : b = 40
      · subst h40
        rw [pdfStep_open]
        rw [if_neg (by omega : ¬ ((k : Int) + 1 + 1 = 1))]
        rw [show (k : Int) + 1 + 1 = ((k + 1 : Nat) : Int) + 1 from by push_cast; ring]
        rw [show regionsInside (40 :: bs) k cur = regionsInside bs (k + 1) cur from by
          simp [regionsInside]]
        exact ih.2 (k + 1) cur txt
      · by_cases h41 : b = 41
        · subst h41
          cases k with
          | zero =>
            by_cases hcur : cur = []
            · subst hcur
              rw [pdfStep_close_noflush _ (by simp)]
              rw [show ((0 : Nat) : Int) + 1 - 1 = 0 from by norm_num]
              rw [show regionsInside (41 :: bs) 0 ([] : List Char) = regionsOutside bs 0
                from by simp [regionsInside]]
              exact ih.1 0 [] txt le_rfl
            · rw [pdfStep_close_flush _ (by norm_num) hcur]
              rw [show regionsInside (41 :: bs) 0 cur = cur :: regionsOutside bs 0 from by
                simp [regionsInside, hcur]]
              rw [joinTrail_cons]
              rw [ih.1 0 cur (txt ++ cur ++ [' ']) le_rfl]
              simp
          | succ k2 =>
            rw [pdfStep_close_noflush _ (by simp; omega)]
            rw [show ((k2 + 1 : Nat) : Int) + 1 - 1 = ((k2 : Nat) : Int) + 1 from by
              push_cast; ring]
            rw [show regionsInside (41 :: bs) (k2 + 1) cur = regionsInside bs k2 cur from by
              simp [regionsInside]]
            exact ih.2 k2 cur txt
        · by_cases hr : 32 ≤ b ∧ b ≤ 126
          · rw [pdfStep_collect _ _ h40 h41 (by positivity) hr]
            rw [show regionsInside (b :: bs) k cur =
                regionsInside bs k (cur ++ [Char.ofNat b]) from by
              simp [regionsInside, h40, h41, hr.1, hr.2]]
            exact ih.2 k (cur ++ [Char.ofNat b]) txt
          · rw [pdfStep_skip _ _ h40 h41 (fun hco => absurd hco.2 hr)]
            rw [show regionsInside (b :: bs) k cur = regionsInside bs k cur from by
              simp [regionsInside, h40, h41, hr]]
            exact ih.2 k cur txt

lemma pdfScan_eq_regions (bytes : List Nat) :
    pdfScanText bytes = joinTrail (regionsOutside bytes.dropLast 0) := by
  unfold pdfScanText
  simpa using (pdfFold_spec bytes.dropLast).1 0 [] [] le_rfl

/-! ## Character-level facts about the cleanup chain -/

lemma mem_replEsc {c : Char} : ∀ {l : List Char}, c ∈ replEsc l → c ∈ l ∨ c = ' ' := by
  intro l
  induction l using replEsc.induct with
  | case1 c2 rest hesc ih =>
    rw [replEsc, if_pos hesc]
    intro h
    rcases List.mem_cons.mp h with h | h
    · right; exact h
    · rcases ih h with h2 | h2
      · left; simp [h2]
      · right; exact h2
  | case2 c2 rest hesc ih =>
    rw [replEsc, if_neg hesc]
    intro h
    rcases List.mem_cons.mp h with h | h
    · left; simp [h]
    · rcases ih h with h2 | h2
      · left; simp at h2 ⊢; tauto
      · right; exact h2
  | case3 c2 rest hshape ih =>
    by_cases hc : c2 = '\\'
    · subst hc
      have hrest : rest = [] := by
        cases rest with
        | nil => rfl
        | cons a as => exact absurd rfl (fun h => hshape a as rfl h)
      subst hrest
      intro h
      left
      simpa [replEsc] using h
    · rw [replEsc]
      · intro h
        rcases List.mem_cons.mp h with h | h
        · left; simp [h]
        · rcases ih h with h2 | h2
          · left; simp [h2]
          · right; exact h2
      · exact fun c1 r1 hcc _ => hc hcc
  | case4 => intro h; simp [replEsc] at h

lemma mem_collapse {c : Char} :
    ∀ (l : List Char), (c ∈ collapseWs l → c ∈ l ∨ c = ' ') ∧
      (c ∈ skipWsThen l → c ∈ l ∨ c = ' ') := by
  intro l
  induction l with
  | nil => simp [collapseWs, skipWsThen]
  | cons a as ih =>
    constructor
    · intro h
      rw [collapseWs] at h
      by_cases hw : isWsChar a = true
      · rw [if_pos hw] at h
        rcases List.mem_cons.mp h with h | h
        · right; exact h
        · rcases ih.2 h with h2 | h2
          · left; exact List.mem_cons_of_mem _ h2
          · right; exact h2
      · rw [if_neg hw] at h
        rcases List.mem_cons.mp h with h | h
        · left; simp [h]
        · rcases ih.1 h with h2 | h2
          · left; exact List.mem_cons_of_mem _ h2
          · right; exact h2
    · intro h
      rw [skipWsThen] at h
      by_cases hw : isWsChar a = true
      · rw [if_pos hw] at h
        rcases ih.2 h with h2 | h2
        · left; exact List.mem_cons_of_mem _ h2
        · right; exact h2
      · rw [if_neg hw] at h
        rcases List.mem_cons.mp h with h | h
        · left; simp [h]
        · rcases ih.1 h with h2 | h2
          · left; exact List.mem_cons_of_mem _ h2
          · right; exact h2

lemma dropTrailWs_pre (y : List Char) : dropTrailWs y <+: y := by
  unfold dropTrailWs
  have h := List.dropWhile_suffix (l := y.reverse) (p := fun c => isWsChar c)
  have h2 := h.reverse
  simpa using h2

lemma mem_trimWs {c : Char} {l : List Char} (h : c ∈ trimWs l) : c ∈ l := by
  unfold trimWs at h
  have h1 : c ∈ l.dropWhile fun d => isWsChar d :=
    (dropTrailWs_pre _).subset h
  exact (List.dropWhile_suffix _).subset h1

lemma mem_cleanupPdf {c : Char} {l : List Char} (h : c ∈ cleanupPdf l) :
    c ∈ l ∨ c = ' ' := by
  unfold cleanupPdf at h
  have h1 := mem_trimWs h
  rcases (mem_collapse (replEsc l)).1 h1 with h2 | h2
  · exact mem_replEsc h2
  · right; exact h2

lemma mem_joinTrail {c : Char} :
    ∀ {rs : List (List Char)}, c ∈ joinTrail rs → (∃ r ∈ rs, c ∈ r) ∨ c = ' ' := by
  intro rs
  induction rs with
  | nil => simp [joinTrail]
  | cons r rs ih =>
    rw [joinTrail_cons]
    intro h
    rcases List.mem_append.mp h with h | h
    · rcases List.mem_append.mp h with h | h
      · left; exact ⟨r, List.mem_cons_self _ _, h⟩
      · right; simpa using h
    · rcases ih h with ⟨r2, hr2, hc⟩ | h2
      · left; exact ⟨r2, List.mem_cons_of_mem _ hr2, hc⟩
      · right; exact h2

lemma char_ofNat_printable {b : Nat} (h1 : 32 ≤ b) (h2 : b ≤ 126) :
    isPrintable (Char.ofNat b) = true := by
  have hv : b.isValidChar := Or.inl (by omega)
  unfold isPrintable
  have ht : (Char.ofNat b).toNat = b := by
    simp only [Char.ofNat, hv, dif_pos, Char.ofNatAux, Char.toNat]
    rfl
  rw [ht]
  simp [h1, h2]

lemma regions_printable (bs : List Nat) :
    (∀ d, ∀ r ∈ regionsOutside bs d, ∀ c ∈ r, isPrintable c = true) ∧
    (∀ k acc, (∀ c ∈ acc, isPrintable c = true) →
      ∀ r ∈ regionsInside bs k acc, ∀ c ∈ r, isPrintable c = true) := by
  induction bs with
  | nil =>
    constructor
    · intro d r hr
      simp [regionsOutside] at hr
    · intro k acc _ r hr
      simp [regionsInside] at hr
  | cons b bs ih =>
    constructor
    · intro d r hr
      by_cases h40 : b = 40
      · subst h40
        by_cases hd0 : d = 0
        · subst hd0
          rw [show regionsOutside (40 :: bs) 0 = regionsInside bs 0 [] from by
            simp [regionsOutside]] at hr
          exact ih.2 0 [] (by simp) r hr
        · rw [show regionsOutside (40 :: bs) d = regionsOutside bs (d + 1) from by
            simp [regionsOutside, hd0]] at hr
          exact ih.1 (d + 1) r hr
      · by_cases h41 : b = 41
        · subst h41
          rw [show regionsOutside (41 :: bs) d = regionsOutside bs (d - 1) from by
            simp [regionsOutside]] at hr
          exact ih.1 (d - 1) r hr
        · rw [show regionsOutside (b :: bs) d = regionsOutside bs d from by
            simp [regionsOutside, h40, h41]] at hr
          exact ih.1 d r hr
    · intro k acc hacc r hr
      by_cases h40 : b = 40
      · subst h40
        rw [show regionsInside (40 :: bs) k acc = regionsInside bs (k + 1) acc from by
          simp [regionsInside]] at hr
        exact ih.2 (k + 1) acc hacc r hr
      · by_cases h41 : b = 41
        · subst h41
          cases k with
          | zero =>
            by_cases hacc0 : acc.isEmpty
            · rw [show regionsInside (41 :: bs) 0 acc = regionsOutside bs 0 from by
                simp [regionsInside, hacc0]] at hr
              exact ih.1 0 r hr
            · rw [show regionsInside (41 :: bs) 0 acc = acc :: regionsOutside bs 0 from by
                simp [regionsInside, hacc0]] at hr
              rcases List.mem_cons.mp hr with h | h
              · subst h; exact hacc
              · exact ih.1 0 r h
          | succ k2 =>
            rw [show regionsInside (41 :: bs) (k2 + 1) acc = regionsInside bs k2 acc from by
              simp [regionsInside]] at hr
            exact ih.2 k2 acc hacc r hr
        · by_cases hrange : 32 ≤ b ∧ b ≤ 126
          · rw [show regionsInside (b :: bs) k acc =
                regionsInside bs k (acc ++ [Char.ofNat b]) from by
              simp [regionsInside, h40, h41, hrange.1, hrange.2]] at hr
            refine ih.2 k (acc ++ [Char.ofNat b]) ?_ r hr
            intro c hc
            rcases List.mem_append.mp hc with h | h
            · exact hacc c h
            · simp at h
              subst h
              exact char_ofNat_printable hrange.1 hrange.2
          · rw [show regionsInside (b :: bs) k acc = regionsInside bs k acc from by
              simp [regionsInside, h40, h41, hrange]] at hr
            exact ih.2 k acc hacc r hr

/-! ## Trim and double-space facts -/

lemma noTwoSpaces_cons2 (c d : Char) (rest : List Char) :
    noTwoSpaces (c :: d :: rest) = (!(c == ' ' && d == ' ') && noTwoSpaces (d :: rest)) :=
  rfl

lemma noTwoSpaces_cons {c : Char} {z : List Char}
    (h1 : c = ' ' → z.head? ≠ some ' ') (h2 : noTwoSpaces z = true) :
    noTwoSpaces (c :: z) = true := by
  cases z with
  | nil => rfl
  | cons d zs =>
    rw [noTwoSpaces_cons2, Bool.and_eq_true]
    refine ⟨?_, h2⟩
    by_cases hc : c = ' '
    · have hd : d ≠ ' ' := by
        intro hdd
        exact h1 hc (by simp [hdd])
      simp [hc, hd]
    · simp [hc]

lemma noTwoSpaces_tail {c : Char} {z : List Char}
    (h : noTwoSpaces (c :: z) = true) : noTwoSpaces z = true := by
  cases z with
  | nil => rfl
  | cons d zs =>
    rw [noTwoSpaces_cons2, Bool.and_eq_true] at h
    exact h.2

lemma noTwoSpaces_append_right {a b : List Char}
    (h : noTwoSpaces (a ++ b) = true) : noTwoSpaces b = true := by
  induction a with
  | nil => exact h
  | cons c a ih => exact ih (noTwoSpaces_tail h)

lemma noTwoSpaces_append_left :
    ∀ (a b : List Char), noTwoSpaces (a ++ b) = true → noTwoSpaces a = true := by
  intro a
  induction a with
  | nil => intro b _; rfl
  | cons c a ih =>
    intro b h
    cases a with
    | nil => rfl
    | cons d a2 =>
      have h2 : (!(c == ' ' && d == ' ') && noTwoSpaces (d :: (a2 ++ b))) = true := h
      rw [Bool.and_eq_true] at h2
      rw [noTwoSpaces_cons2, Bool.and_eq_true]
      exact ⟨h2.1, ih b h2.2⟩

lemma head_dropWhile_not {p : Char → Bool} :
    ∀ {l : List Char} {c : Char}, (l.dropWhile p).head? = some c → p c = false := by
  intro l
  induction l with
  | nil => intro c h; simp at h
  | cons a as ih =>
    intro c h
    by_cases hp : p a = true
    · rw [List.dropWhile_cons_of_pos hp] at h
      exact ih h
    · rw [List.dropWhile_cons_of_neg hp] at h
      simp at h
      subst h
      simpa using hp

lemma skipWsThen_head_not_ws :
    ∀ (l : List Char) {c : Char}, (skipWsThen l).head? = some c → isWsChar c = false := by
  intro l
  induction l with
  | nil => intro c h; simp [skipWsThen] at h
  | cons a as ih =>
    intro c h
    rw [skipWsThen] at h
    by_cases hw : isWsChar a = true
    · rw [if_pos hw] at h
      exact ih h
    · rw [if_neg hw] at h
      simp at h
      subst h
      simpa using hw

lemma noTwoSpaces_collapse (l : List Char) :
    noTwoSpaces (collapseWs l) = true ∧ noTwoSpaces (skipWsThen l) = true := by
  induction l with
  | nil => exact ⟨rfl, rfl⟩
  | cons c cs ih =>
    constructor
    · rw [collapseWs]
      by_cases hw : isWsChar c = true
      · rw [if_pos hw]
        refine noTwoSpaces_cons ?_ ih.2
        intro _ hhead
        have := skipWsThen_head_not_ws cs hhead
        rw [isWsChar_space] at this
        exact absurd this (by simp)
      · rw [if_neg hw]
        refine noTwoSpaces_cons ?_ ih.1
        intro hc
        rw [hc] at hw
        exact absurd isWsChar_space hw
    · rw [skipWsThen]
      by_cases hw : isWsChar c = true
      · rw [if_pos hw]
        exact ih.2
      · rw [if_neg hw]
        refine noTwoSpaces_cons ?_ ih.1
        intro hc
        rw [hc] at hw
        exact absurd isWsChar_space hw

lemma noTwoSpaces_trimWs {l : List Char} (h : noTwoSpaces l = true) :
    noTwoSpaces (trimWs l) = true := by
  unfold trimWs
  have h1 : noTwoSpaces (l.dropWhile fun c => isWsChar c) = true := by
    rcases (List.dropWhile_suffix (fun c => isWsChar c) (l := l)) with ⟨a, ha⟩
    rw [← ha] at h
    exact noTwoSpaces_append_right h
  rcases dropTrailWs_pre (l.dropWhile fun c => isWsChar c) with ⟨t, ht⟩
  rw [← ht] at h1
  exact noTwoSpaces_append_left _ _ h1

lemma trimWs_head_not_ws {l : List Char} {c : Char}
    (h : (trimWs l).head? = some c) : isWsChar c = false := by
  unfold trimWs at h
  rcases dropTrailWs_pre (l.dropWhile fun d => isWsChar d) with ⟨t, ht⟩
  have hh : (l.dropWhile fun d => isWsChar d).head? = some c := by
    rw [← ht]
    cases hdt : dropTrailWs (l.dropWhile fun d => isWsChar d) with
    | nil => rw [hdt] at h; simp at h
    | cons x xs =>
      rw [hdt] at h
      simp at h
      simp [hdt, h]
  exact head_dropWhile_not hh

lemma trimWs_getLast_not_ws {l : List Char} {c : Char}
    (h : (trimWs l).getLast? = some c) : isWsChar c = false := by
  unfold trimWs dropTrailWs at h
  rw [List.getLast?_reverse] at h
  exact head_dropWhile_not h

/-! ## Claim C1 -/

/-- **C1, amended.**  For a PDF upload, process-notes scans all bytes of the
file except the last while counting parenthesis depth (depth rises at byte 40
and falls at byte 41); for each maximal region opened by a 0-to-1 depth
transition and closed when depth returns to 0, exactly the bytes with codes
32..126 *other than the parenthesis bytes 40 and 41* inside the region are
collected; the non-empty runs are joined by single spaces; the escapes
`\\n \\r \\t \\b \\f` and every whitespace run collapse to single spaces and the
result is trimmed — so the extracted text is printable ASCII, has no leading
or trailing whitespace, and never holds two consecutive spaces. -/
theorem pdf_extract_amended_ok (bytes : List Nat) :
    pdfExtract bytes = pdfAmendedExtract bytes ∧
    (∀ c ∈ pdfExtract bytes, isPrintable c = true) ∧
    (∀ c, (pdfExtract bytes).head? = some c → isWsChar c = false) ∧
    (∀ c, (pdfExtract bytes).getLast? = some c → isWsChar c = false) ∧
    noTwoSpaces (pdfExtract bytes) = true := by
  have heq : pdfExtract bytes = pdfAmendedExtract bytes := by
    unfold pdfExtract pdfAmendedExtract
    rw [pdfScan_eq_regions]
    exact cleanup_joinTrail_eq_joinSp _
  refine ⟨heq, ?_, ?_, ?_, ?_⟩
  · intro c hc
    unfold pdfExtract at hc
    rcases mem_cleanupPdf hc with h | h
    · rw [pdfScan_eq_regions] at h
      rcases mem_joinTrail h with ⟨r, hr, hcr⟩ | h2
      · exact (regions_printable _).1 0 r hr c hcr
      · subst h2; decide
    · subst h; decide
  · intro c hc
    unfold pdfExtract cleanupPdf at hc
    exact trimWs_head_not_ws hc
  · intro c hc
    unfold pdfExtract cleanupPdf at hc
    exact trimWs_getLast_not_ws hc
  · unfold pdfExtract cleanupPdf
    exact noTwoSpaces_trimWs (noTwoSpaces_collapse _).1

/-- **C1, counterexample.**  On the file bytes `"(a(b)c)."` the extraction the
claim describes keeps the nested parentheses (printable bytes 40/41 inside the
region), yielding `"a(b)c"`, while the code drops them and yields `"abc"`; on
the three bytes `"(a)"` the claim's whole-file scan yields `"a"` while the
code, which never visits the last byte, yields `""`. -/
theorem pdf_claim_counterexample :
    pdfClaimExtract [40, 97, 40, 98, 41, 99, 41, 46] = 'a' :: '(' :: 'b' :: ')' :: ['c'] ∧
    pdfExtract [40, 97, 40, 98, 41, 99, 41, 46] = 'a' :: 'b' :: ['c'] ∧
    pdfClaimExtract [40, 97, 40, 98, 41, 99, 41, 46] ≠
      pdfExtract [40, 97, 40, 98, 41, 99, 41, 46] ∧
    pdfClaimExtract [40, 97, 41] = ['a'] ∧
    pdfExtract [40, 97, 41] = [] ∧
    pdfClaimExtract [40, 97, 41] ≠ pdfExtract [40, 97, 41] := by
  refine ⟨by decide, by decide, by decide, by decide, by decide, by decide⟩

/-- Witness: `pdf_extract_amended_ok` applied to the bytes of `"(hi)"`
followed by a newline byte, whose extraction is `"hi"`. -/
theorem pdf_extract_amended_witness :
    isPrintable 'h' = true ∧ isWsChar 'h' = false ∧ isWsChar 'i' = false :=
  ⟨(pdf_extract_amended_ok [40, 104, 105, 41, 10]).2.1 'h' (by decide),
    (pdf_extract_amended_ok [40, 104, 105, 41, 10]).2.2.1 'h' (by decide),
    (pdf_extract_amended_ok [40, 104, 105, 41, 10]).2.2.2.1 'i' (by decide)⟩

/-! ## Claim C9: the scientific calculator's handleEquals rewrite

`handleEquals` evaluates `display.replace(/ln\\(/g, "log(").replace(/log\\(/g,
"log10(")`; each replace is the usual leftmost, non-overlapping global
substitution, modelled on character lists. -/

/-- `.replace(/ln\\(/g, "log(")`. -/
def replaceLn : List Char → List Char
  | 'l' :: 'n' :: '(' :: rest => 'l' :: 'o' :: 'g' :: '(' :: replaceLn rest
  | c :: rest => c :: replaceLn rest
  | [] => []

/-- `.replace(/log\\(/g, "log10(")`. -/
def replaceLog : List Char → List Char
  | 'l' :: 'o' :: 'g' :: '(' :: rest =>
    'l' :: 'o' :: 'g' :: '1' :: '0' :: '(' :: replaceLog rest
  | c :: rest => c :: replaceLog rest
  | [] => []

/-- The whole expression rewrite of `handleEquals`. -/
def calcRewrite (s : List Char) : List Char :=
  replaceLog (replaceLn s)

/-- One pass sending both `ln(` and `log(` to `log10(`. -/
def replaceBoth : List Char → List Char
  | 'l' :: 'n' :: '(' :: rest =>
    'l' :: 'o' :: 'g' :: '1' :: '0' :: '(' :: replaceBoth rest
  | 'l' :: 'o' :: 'g' :: '(' :: rest =>
    'l' :: 'o' :: 'g' :: '1' :: '0' :: '(' :: replaceBoth rest
  | c :: rest => c :: replaceBoth rest
  | [] => []

lemma replaceLn_paren : ∀ xs ys, replaceLn xs = '(' :: ys →
    ∃ zs, xs = '(' :: zs ∧ replaceLn zs = ys := by
  intro xs
  induction xs using replaceLn.induct with
  | case1 rest ih => intro ys h; rw [replaceLn] at h; simp at h
  | case2 c rest hshape ih =>
    intro ys h
    rw [replaceLn] at h
    · have h1 : c = '(' := (List.cons.injEq .. ▸ h).1
      have h2 : replaceLn rest = ys := (List.cons.injEq .. ▸ h).2
      exact ⟨rest, by rw [h1], h2⟩
    · exact hshape
  | case3 => intro ys h; simp [replaceLn] at h

lemma replaceLn_gparen : ∀ xs ys, replaceLn xs = 'g' :: '(' :: ys →
    ∃ zs, xs = 'g' :: '(' :: zs ∧ replaceLn zs = ys := by
  intro xs
  induction xs using replaceLn.induct with
  | case1 rest ih => intro ys h; rw [replaceLn] at h; simp at h
  | case2 c rest hshape ih =>
    intro ys h
    rw [replaceLn] at h
    · have h1 : c = 'g' := (List.cons.injEq .. ▸ h).1
      have h2 : replaceLn rest = '(' :: ys := (List.cons.injEq .. ▸ h).2
      rcases replaceLn_paren rest ys h2 with ⟨zs, hzs, hys⟩
      exact ⟨zs, by rw [h1, hzs], hys⟩
    · exact hshape
  | case3 => intro ys h; simp [replaceLn] at h

lemma replaceLn_ogparen : ∀ xs ys, replaceLn xs = 'o' :: 'g' :: '(' :: ys →
    ∃ zs, xs = 'o' :: 'g' :: '(' :: zs ∧ replaceLn zs = ys := by
  intro xs
  induction xs using replaceLn.induct with
  | case1 rest ih => intro ys h; rw [replaceLn] at h; simp at h
  | case2 c rest hshape ih =>
    intro ys h
    rw [replaceLn] at h
    · have h1 : c = 'o' := (List.cons.injEq .. ▸ h).1
      have h2 : replaceLn rest = 'g' :: '(' :: ys := (List.cons.injEq .. ▸ h).2
      rcases replaceLn_gparen rest ys h2 with ⟨zs, hzs, hys⟩
      exact ⟨zs, by rw [h1, hzs], hys⟩
    · exact hshape
  | case3 => intro ys h; simp [replaceLn] at h

lemma replaceLn_cons (c : Char) (cs : List Char)
    (h : ∀ r, c = 'l' → cs = 'n' :: '(' :: r → False) :
    replaceLn (c :: cs) = c :: replaceLn cs := by
  rw [replaceLn]
  exact h

lemma replaceLog_cons (c : Char) (cs : List Char)
    (h : ∀ r, c = 'l' → cs = 'o' :: 'g' :: '(' :: r → False) :
    replaceLog (c :: cs) = c :: replaceLog cs := by
  rw [replaceLog]
  exact h

lemma replaceBoth_cons (c : Char) (cs : List Char)
    (h1 : ∀ r, c = 'l' → cs = 'n' :: '(' :: r → False)
    (h2 : ∀ r, c = 'l' → cs = 'o' :: 'g' :: '(' :: r → False) :
    replaceBoth (c :: cs) = c :: replaceBoth cs := by
  rw [replaceBoth]
  · exact h1
  · exact h2

lemma calcRewrite_eq_replaceBoth (s : List Char) : calcRewrite s = replaceBoth s := by
  induction s using replaceBoth.induct with
  | case1 rest ih =>
    unfold calcRewrite at ih ⊢
    rw [replaceLn, replaceLog, ih, replaceBoth]
  | case2 rest ih =>
    unfold calcRewrite at ih ⊢
    rw [replaceLn_cons _ _ (fun r h1 h2 => by simp at h2),
      replaceLn_cons _ _ (fun r h1 _ => by simp at h1),
      replaceLn_cons _ _ (fun r h1 _ => by simp at h1),
      replaceLn_cons _ _ (fun r h1 _ => by simp at h1),
      replaceLog, ih]
    rw [replaceBoth]
  | case3 c rest hs1 hs2 ih =>
    unfold calcRewrite at ih ⊢
    rw [replaceLn_cons _ _ hs1]
    rw [replaceLog_cons _ _ (fun r hc hog => by
      rcases replaceLn_ogparen rest r hog with ⟨zs, hzs, _⟩
      exact hs2 zs hc hzs)]
    rw [ih, replaceBoth_cons _ _ hs1 hs2]
  | case4 => rfl

/-- **C9.**  `handleEquals` rewrites the display by first replacing every
`ln(` with `log(` and then every `log(` with `log10(`; the combined effect is
the one-pass rewrite sending both the `ln` and the `log` function tokens to
`log10(`, so an expression entered through the `ln` button is evaluated as the
library's base-10 logarithm, never as a natural logarithm. -/
theorem calc_ln_evaluated_as_log10 (s : List Char) :
    calcRewrite s = replaceBoth s ∧
    (∀ rest, calcRewrite ('l' :: 'n' :: '(' :: rest) =
      'l' :: 'o' :: 'g' :: '1' :: '0' :: '(' :: replaceBoth rest) ∧
    (∀ rest, calcRewrite ('l' :: 'o' :: 'g' :: '(' :: rest) =
      'l' :: 'o' :: 'g' :: '1' :: '0' :: '(' :: replaceBoth rest) := by
  refine ⟨calcRewrite_eq_replaceBoth s, ?_, ?_⟩
  · intro rest
    rw [calcRewrite_eq_replaceBoth, replaceBoth]
  · intro rest
    rw [calcRewrite_eq_replaceBoth, replaceBoth]

/-! ## Non-PDF extraction (DOC/DOCX/PPT/PPTX branch of process-notes)

`text.match(/<w:t[^>]*>([^<]+)<\/w:t>/g)` followed by per-match tag stripping,
or the readable-content fallback chain when there is no match. -/

/-- One attempt to match `<w:t[^>]*>([^<]+)</w:t>` at the head of `s`:
returns the attribute span, the captured content, and the rest of the input. -/
def wtMatchHead : List Char → Option (List Char × List Char × List Char)
  | '<' :: 'w' :: ':' :: 't' :: s1 =>
    match s1.dropWhile (fun c => c != '>') with
    | '>' :: s2 =>
      if (s2.takeWhile fun c => c != '<').isEmpty then none
      else
        match s2.dropWhile (fun c => c != '<') with
        | '<' :: '/' :: 'w' :: ':' :: 't' :: '>' :: rest =>
          some (s1.takeWhile fun c => c != '>', s2.takeWhile fun c => c != '<', rest)
        | _ => none
    | _ => none
  | _ => none

lemma wtMatchHead_rest_lt {s attrs content rest : List Char}
    (h : wtMatchHead s = some (attrs, content, rest)) : rest.length < s.length := by
  unfold wtMatchHead at h
  split at h
  · rename_i s1
    split at h
    · rename_i heq1
      rename_i s2
      by_cases hemp : (s2.takeWhile fun c => c != '<').isEmpty
      · rw [if_pos hemp] at h; simp at h
      · rw [if_neg hemp] at h
        split at h
        · rename_i rest2 heq2
          simp only [Option.some.injEq, Prod.mk.injEq] at h
          obtain ⟨h1, h2, h3⟩ := h
          subst h3
          have hs1 := congrArg List.length
            (List.takeWhile_append_dropWhile (p := fun c => c != '>') (l := s1))
          rw [heq1] at hs1
          have hs2 := congrArg List.length
            (List.takeWhile_append_dropWhile (p := fun c => c != '<') (l := s2))
          rw [heq2] at hs2
          simp [List.length_append] at hs1 hs2
          simp
          omega
        · simp at h
    · simp at h
  · simp at h

/-- All matches of the global regex in order (`text.match(...)` with `g`). -/
def wtScan : List Char → List (List Char × List Char)
  | [] => []
  | c :: cs =>
    match h : wtMatchHead (c :: cs) with
    | some (attrs, content, rest) => (attrs, content) :: wtScan rest
    | none => wtScan cs
termination_by l => l.length
decreasing_by
  · exact wtMatchHead_rest_lt h
  · simp

/-- The full text of a regex match, rebuilt from its parts. -/
def wtFull (m : List Char × List Char) : List Char :=
  '<' :: 'w' :: ':' :: 't' :: m.1 ++ '>' :: m.2 ++
    ('<' :: '/' :: 'w' :: ':' :: 't' :: '>' :: [])

/-- `m.replace(/<[^>]+>/g, "")`: strip tag spans (at least one inner char). -/
def stripTags : List Char → List Char
  | '<' :: cs =>
    match h : cs.dropWhile (fun c => c != '>') with
    | '>' :: rest =>
      if (cs.takeWhile fun c => c != '>').isEmpty then '<' :: stripTags cs
      else stripTags rest
    | _ => '<' :: stripTags cs
  | c :: cs => c :: stripTags cs
  | [] => []
termination_by l => l.length
decreasing_by
  · simp
  · have hlen := congrArg List.length
      (List.takeWhile_append_dropWhile (p := fun c => c != '>') (l := cs))
    rw [h] at hlen
    simp [List.length_append] at hlen
    simp
    omega
  · simp
  · simp

/-- `.replace(/<[^>]*>/g, " ")`: tag-like spans become spaces. -/
def tagsToSpace : List Char → List Char
  | '<' :: cs =>
    match h : cs.dropWhile (fun c => c != '>') with
    | '>' :: rest => ' ' :: tagsToSpace rest
    | _ => '<' :: tagsToSpace cs
  | c :: cs => c :: tagsToSpace cs
  | [] => []
termination_by l => l.length
decreasing_by
  · have hlen := congrArg List.length
      (List.takeWhile_append_dropWhile (p := fun c => c != '>') (l := cs))
    rw [h] at hlen
    simp [List.length_append] at hlen
    simp
    omega
  · simp
  · simp

/-- `.replace(/[^\x20-\x7E\n]/g, " ")`: non-printables except newline. -/
def nonPrintToSpace (l : List Char) : List Char :=
  l.map fun c => if (32 ≤ c.toNat ∧ c.toNat ≤ 126) ∨ c = '\n' then c else ' '

/-- The non-PDF extraction: the `<w:t>` matches stripped of tags and joined by
single spaces, or the readable-content fallback chain. -/
def nonPdfExtract (text : String) : String :=
  let ms := wtScan text.data
  if ms.isEmpty then
    ⟨trimWs (collapseWs (nonPrintToSpace (tagsToSpace text.data)))⟩
  else
    ⟨joinSp (ms.map fun m => stripTags (wtFull m))⟩

/-- What claim C4 states for the match branch: the extracted text is exactly
the captured contents, joined by single spaces. -/
def nonPdfClaimExtract (text : String) : String :=
  let ms := wtScan text.data
  if ms.isEmpty then
    ⟨trimWs (collapseWs (nonPrintToSpace (tagsToSpace text.data)))⟩
  else
    ⟨joinSp (ms.map fun m => m.2)⟩

/-! ## The process-notes handler -/

/-- `.toLowerCase()` on the character list of a string. -/
def strToLower (s : String) : String :=
  ⟨s.data.map Char.toLower⟩

/-- `.toUpperCase()` on the character list of a string. -/
def strToUpper (s : String) : String :=
  ⟨s.data.map Char.toUpper⟩

/-- `.substring(0, n)` on the character list of a string. -/
def strTake (n : Nat) (s : String) : String :=
  ⟨s.data.take n⟩

/-- `s.split(sep).pop() || ""`: the text after the final separator. -/
def lastSplit (sep : Char) (s : String) : String :=
  ⟨(s.data.reverse.takeWhile fun c => c != sep).reverse⟩

/-- `fileName.replace(/\.[^/.]+$/, "")`: drop a final dot extension. -/
def stripExt (s : String) : String :=
  let r := s.data.reverse
  let ext := r.takeWhile fun c => !(c == '.' || c == '/')
  match r.drop ext.length with
  | '.' :: rest => if ext.isEmpty then s else ⟨rest.reverse⟩
  | _ => s

/-- The parsed request body of process-notes. -/
structure ProcReq where
  filePath : Option String
  userId : Option String
  noteId : Option String
deriving DecidableEq

/-- `await req.json()`: either the parsed body or the thrown parse error. -/
inductive ReqBody
  | parseFail (msg : String)
  | parsed (r : ProcReq)
deriving DecidableEq

/-- A downloaded file: its raw bytes together with the platform
`TextDecoder("utf-8", { fatal: false })` view of them (the decoder is external
to the repository, so its output is an input of the model). -/
structure FileData where
  bytes : List Nat
  decodedUtf8 : String
deriving DecidableEq

/-- The fields an update object literal can carry; `none` means the field is
absent from the literal.  For `error_message`, `some none` models writing SQL
null. -/
structure UpdatePayload where
  status : Option String := none
  error_message : Option (Option String) := none
  processed_content : Option String := none
  original_content : Option String := none
  updated_at : Option String := none
deriving DecidableEq

/-- One `supabase.from("notes").update(payload).eq("id", targetId)` call. -/
structure NotesWrite where
  targetId : Option String
  payload : UpdatePayload
deriving DecidableEq

/-- The JSON body of a process-notes response: `{success: true, contentLength}`
on 200, `{error}` on 500. -/
inductive RespBody
  | success (contentLength : Nat)
  | failure (error : String)
deriving DecidableEq

/-- An HTTP response of process-notes plus the database updates it issued. -/
structure HandlerResult where
  status : Nat
  body : RespBody
  writes : List NotesWrite
deriving DecidableEq

/-- Payload of the initial status update: `{status: "processing",
error_message: null, updated_at}`. -/
def processingPayload (now : String) : UpdatePayload :=
  { status := some "processing", error_message := some none, updated_at := some now }

/-- Payload of the catch-block update: `{status: "error", error_message,
updated_at}`. -/
def errorPayload (msg now : String) : UpdatePayload :=
  { status := some "error", error_message := some (some msg), updated_at := some now }

/-- Payload of the success update: `{status: "ready", processed_content,
original_content, updated_at}`. -/
def readyPayload (processed original now : String) : UpdatePayload :=
  { status := some "ready", processed_content := some processed, original_content := some original, updated_at := some now }

/-- The catch-block update marking the note as errored. -/
def errorWrites (noteId : Option String) (msg now : String) : List NotesWrite :=
  match noteId with
  | some nid => [⟨some nid, errorPayload msg now⟩]
  | none => []

/-- The fallback markdown substituted when processing yields fewer than 20
characters. -/
def fallbackContent (fileName fileExtension : String) : String :=
  "# " ++ stripExt fileName ++
  "\n\nThis document has been uploaded successfully.\n\n## Document Information\n- **File Name:** "
  ++ fileName ++ "\n- **File Type:** " ++
  (if fileExtension = "" then "Unknown" else strToUpper fileExtension) ++
  "\n\n## Available Topics\nYou can ask questions about Engineering Mathematics I topics including:\n\n- **Limits and Continuity**: Finding limits, L\x27HÃ´pital\x27s rule, continuity tests\n- **Differentiation**: Power rule, chain rule, product/quotient rules, implicit differentiation\n- **Integration**: Substitution, integration by parts, partial fractions\n- **Differential Equations**: First-order ODEs, separable equations, linear equations\n- **Linear Algebra**: Matrices, determinants, eigenvalues, systems of equations\n\n## How to Use\nSimply type your question or describe the problem you need help with. I\x27ll provide step-by-step solutions."

/-- `processedContent` after the optional AI pass and the short-content
fallback: the AI content (when the key is present, the extracted text is long
enough for the call, and the gateway answered with non-empty content),
otherwise the extracted text; then the fallback document when the result has
fewer than 20 characters. -/
def finalContent (key : Option String) (ai : Option String)
    (extractedText fileName fileExtension : String) : String :=
  let processed0 : String :=
    if key.isSome ∧ 30 < extractedText.length then
      match ai with
      | some c => if c = "" then extractedText else c
      | none => extractedText
    else extractedText
  if processed0 = "" ∨ processed0.length < 20 then
    fallbackContent fileName fileExtension
  else processed0

/-- The process-notes handler as a pure function of the request body and of
every external interaction: the `LOVABLE_API_KEY` environment variable, the
storage download, the AI gateway content (`none` for any fetch/HTTP/shape
failure, which the code swallows), the ready-update result (`some msg` for a
database error), and the clock reading used for `updated_at`. -/
def processNotes (body : ReqBody) (key : Option String)
    (download : Except String FileData) (ai : Option String)
    (updateReady : Option String) (now : String) : HandlerResult :=
  match body with
  | .parseFail msg => ⟨500, .failure msg, []⟩
  | .parsed r =>
    match r.filePath, r.userId with
    | some fp, some _ =>
      let w0 : List NotesWrite :=
        match r.noteId with
        | some nid => [⟨some nid, processingPayload now⟩]
        | none => []
      match download with
      | .error e =>
        let msg := "Failed to download file: " ++ e
        ⟨500, .failure msg, w0 ++ errorWrites r.noteId msg now⟩
      | .ok fileData =>
        let fileName := lastSplit '/' fp
        let fileExtension := strToLower (lastSplit '.' fileName)
        let extractedText : String :=
          if fileExtension = "pdf" then ⟨pdfExtract fileData.bytes⟩
          else nonPdfExtract fileData.decodedUtf8
        let processedContent : String :=
          finalContent key ai extractedText fileName fileExtension
        let readyWrite : NotesWrite :=
          ⟨r.noteId, readyPayload processedContent (strTake 50000 extractedText) now⟩
        match updateReady with
        | some err => ⟨500, .failure err, w0 ++ [readyWrite] ++ errorWrites r.noteId err now⟩
        | none => ⟨200, .success processedContent.length, w0 ++ [readyWrite]⟩
    | _, _ =>
      let msg := "Missing filePath or userId"
      ⟨500, .failure msg, errorWrites r.noteId msg now⟩

/-- The noteId the catch block would use (none when parsing failed). -/
def noteIdOf : ReqBody → Option String
  | .parseFail _ => none
  | .parsed r => r.noteId

/-- The failure conditions claim C2 enumerates. -/
def procFailCond (body : ReqBody) (download : Except String FileData)
    (updateReady : Option String) : Prop :=
  match body with
  | .parseFail _ => True
  | .parsed r =>
    r.filePath = none ∨ r.userId = none ∨
      (∃ e, download = Except.error e) ∨ (∃ e, updateReady = some e)

/-! ## The upload flow and the dashboard retry -/

/-- The row FileUpload.handleUpload inserts into `notes`. -/
structure NoteInsert where
  user_id : String
  file_name : String
  file_type : String
  file_size : Nat
  file_url : String
  status : String
deriving DecidableEq

/-- `supabase.from("notes").insert({...})` of the upload flow. -/
def uploadInsert (userId fileName fileType : String) (fileSize : Nat)
    (fileUrl : String) : NoteInsert :=
  { user_id := userId, file_name := fileName, file_type := fileType,
    file_size := fileSize, file_url := fileUrl, status := "processing" }

/-- Dashboard.handleRetryProcessing's update payload. -/
def retryPayload : UpdatePayload :=
  { status := some "processing", error_message := some none }

/-- The four status words of the spec. -/
def allowedStatuses : List String :=
  ["uploading", "processing", "ready", "error"]

/-- A full note row as stored in the `notes` table. -/
structure NoteRow where
  id : String
  user_id : String
  file_name : String
  file_type : String
  file_size : Nat
  file_url : String
  status : String
  processed_content : Option String
  original_content : Option String
  error_message : Option String
  created_at : String
  updated_at : String
deriving DecidableEq

/-- Effect of an update payload on a matching row: only fields present in the
object literal change. -/
def applyPayload (p : UpdatePayload) (row : NoteRow) : NoteRow :=
  { row with
    status := p.status.getD row.status
    error_message :=
      match p.error_message with
      | some v => v
      | none => row.error_message
    processed_content :=
      match p.processed_content with
      | some v => some v
      | none => row.processed_content
    original_content :=
      match p.original_content with
      | some v => some v
      | none => row.original_content
    updated_at := p.updated_at.getD row.updated_at }

/-! ## The math-solver handler -/

/-- A chat message: role and content. -/
structure ChatMsg where
  role : String
  content : String
deriving DecidableEq

/-- The notice interpolated when `noteContent` is null or empty. -/
def noNotesNotice : String :=
  "No notes content available. Please inform the user to upload notes first."

/-- The tutor prompt before the interpolated notes context. -/
def tutorPromptPrefix : String :=
  "You are 1Note, a specialized math tutor for Engineering Mathematics I. \n\nCRITICAL RULES:\n1. ONLY use information from the provided lecture notes as context\n2. NEVER guess or make up solutions - if unsure, say so\n3. NEVER skip steps in solutions\n4. All solutions MUST follow this structure:\n   **Given:** [State the problem and known values]\n   **Formula:** [State the formula(s) to be used]\n   **Solution:** [Step-by-step working]\n   **Step 1:** [First step with explanation]\n   **Step 2:** [Continue as needed]\n   **Answer:** [Final answer clearly stated]\n\n5. Use LaTeX notation for all math: $inline$ for inline, $$display$$ for display\n6. If a problem is ambiguous, explain your assumptions\n7. Topics covered: Limits, Continuity, Differentiation, Integration, Differential Equations, Linear Algebra\n\nLECTURE NOTES CONTEXT:\n"

/-- The tutor prompt after the interpolated notes context. -/
def tutorPromptSuffix : String :=
  "\n\nBe precise, clear, and educational. Act as a patient private tutor."

/-- The system prompt with `${noteContent || "..."}` interpolated. -/
def mathSystemPrompt (noteContent : Option String) : String :=
  tutorPromptPrefix ++
  (match noteContent with
    | some sc => if sc = "" then noNotesNotice else sc
    | none => noNotesNotice) ++
  tutorPromptSuffix

/-- The `messages` array the handler builds: system prompt, then the mapped
conversation history, then the user message. -/
def buildMessages (message : String) (noteContent : Option String)
    (history : List ChatMsg) : List ChatMsg :=
  { role := "system", content := mathSystemPrompt noteContent } ::
    (history.map fun m => { role := m.role, content := m.content }) ++
    [{ role := "user", content := message }]

/-- Claim C5's description of the same list: one system message, the history
entries in original order with roles and contents unchanged, one user
message. -/
def claimMessages (message : String) (noteContent : Option String)
    (history : List ChatMsg) : List ChatMsg :=
  ({ role := "system", content := mathSystemPrompt noteContent } : ChatMsg) ::
    history ++ [{ role := "user", content := message }]

/-- The parsed math-solver request body, or its JSON parse failure. -/
inductive SolverBody
  | parseFail (msg : String)
  | parsed (message : String) (noteContent : Option String) (history : List ChatMsg)
deriving DecidableEq

/-- Outcome of the AI gateway fetch: a thrown fetch error, a thrown
`response.json()` error, or a settled HTTP response whose parsed content field
is `content` (`none` when `choices[0].message.content` is absent). -/
inductive AiCall
  | fetchFail (msg : String)
  | jsonFail (msg : String)
  | resp (status : Nat) (content : Option String)
deriving DecidableEq

/-- The JSON body of a math-solver response. -/
inductive SolverRespBody
  | answer (response : String)
  | failure (error : String)
deriving DecidableEq

/-- A math-solver response plus the message list forwarded to the gateway
(`none` when no request was made). -/
structure SolverResult where
  status : Nat
  body : SolverRespBody
  forwarded : Option (List ChatMsg)
deriving DecidableEq

/-- The fallback answer for a missing content field. -/
def noAnswerFallback : String :=
  "I couldn\x27t generate a response. Please try again."

/-- The math-solver handler as a pure function of the request body, the
`LOVABLE_API_KEY` variable, and the AI gateway outcome. -/
def mathSolver (body : SolverBody) (key : Option String) (ai : AiCall) :
    SolverResult :=
  match body with
  | .parseFail m => ⟨500, .failure m, none⟩
  | .parsed message noteContent history =>
    match key with
    | none => ⟨500, .failure "LOVABLE_API_KEY is not configured", none⟩
    | some _ =>
      let msgs := buildMessages message noteContent history
      match ai with
      | .fetchFail m => ⟨500, .failure m, some msgs⟩
      | .jsonFail m => ⟨500, .failure m, some msgs⟩
      | .resp st content =>
        if 200 ≤ st ∧ st < 300 then
          ⟨200, .answer
            (match content with
              | some c => if c = "" then noAnswerFallback else c
              | none => noAnswerFallback), some msgs⟩
        else if st = 429 then
          ⟨429, .failure "Rate limit exceeded. Please try again in a moment.", some msgs⟩
        else if st = 402 then
          ⟨402, .failure "Usage limit reached. Please add credits.", some msgs⟩
        else ⟨500, .failure "AI Gateway error", some msgs⟩

/-! ## Facts about the process-notes writes -/

lemma fallbackContent_length (fn ext : String) : 20 ≤ (fallbackContent fn ext).length := by
  unfold fallbackContent
  have h1 : 20 ≤ ("\n\nThis document has been uploaded successfully.\n\n## Document Information\n- **File Name:** ").length := by decide
  simp [String.length_append]
  omega

lemma finalContent_length (key ai : Option String) (e fn ext : String) :
    20 ≤ (finalContent key ai e fn ext).length := by
  unfold finalContent
  set p0 : String :=
    if key.isSome ∧ 30 < e.length then
      match ai with
      | some c => if c = "" then e else c
      | none => e
    else e with hp0
  by_cases h : p0 = "" ∨ p0.length < 20
  · rw [if_pos h]
    exact fallbackContent_length _ _
  · rw [if_neg h]
    push_neg at h
    omega

lemma processNotes_writes_shape (body : ReqBody) (key : Option String)
    (download : Except String FileData) (ai : Option String)
    (updateReady : Option String) (now : String) :
    ∀ w ∈ (processNotes body key download ai updateReady now).writes,
      w.payload = processingPayload now ∨
      (∃ p o, w.payload = readyPayload p o now ∧ 20 ≤ p.length) ∨
      (∃ m, w.payload = errorPayload m now) := by
  intro w hw
  cases body with
  | parseFail m => simp [processNotes] at hw
  | parsed r =>
    obtain ⟨fp, uid, nid⟩ := r
    cases fp with
    | none =>
      cases nid with
      | none => simp [processNotes, errorWrites] at hw
      | some n =>
        simp [processNotes, errorWrites] at hw
        subst hw
        right; right
        exact ⟨_, rfl⟩
    | some fp =>
      cases uid with
      | none =>
        cases nid with
        | none => simp [processNotes, errorWrites] at hw
        | some n =>
          simp [processNotes, errorWrites] at hw
          subst hw
          right; right
          exact ⟨_, rfl⟩
      | some uid =>
        cases download with
        | error e =>
          cases nid with
          | none => simp [processNotes, errorWrites] at hw
          | some n =>
            simp [processNotes, errorWrites] at hw
            rcases hw with hw | hw
            · subst hw; left; rfl
            · subst hw; right; right; exact ⟨_, rfl⟩
        | ok fd =>
          cases updateReady with
          | none =>
            cases nid with
            | none =>
              simp [processNotes, errorWrites] at hw
              subst hw
              right; left
              exact ⟨_, _, rfl, finalContent_length _ _ _ _ _⟩
            | some n =>
              simp [processNotes, errorWrites] at hw
              rcases hw with hw | hw
              · subst hw; left; rfl
              · subst hw
                right; left
                exact ⟨_, _, rfl, finalContent_length _ _ _ _ _⟩
          | some err =>
            cases nid with
            | none =>
              simp [processNotes, errorWrites] at hw
              subst hw
              right; left
              exact ⟨_, _, rfl, finalContent_length _ _ _ _ _⟩
            | some n =>
              simp [processNotes, errorWrites] at hw
              rcases hw with hw | hw | hw
              · subst hw; left; rfl
              · subst hw
                right; left
                exact ⟨_, _, rfl, finalContent_length _ _ _ _ _⟩
              · subst hw; right; right; exact ⟨_, rfl⟩

/-! ## Claims C2, C3, C6, C8 -/

/-- **C2.**  Every process-notes request ends in exactly one of two outcomes:
when none of the failure conditions holds (body parse failure, missing
filePath or userId, storage download error, database update error) the
response is HTTP 200 with `{success: true, contentLength}` and a status-ready
update of the targeted note is issued; when one holds, the response is HTTP
500 with the error message in the body, and if a noteId was supplied the note
is updated to status error with that message in `error_message`. -/
theorem process_notes_outcomes (body : ReqBody) (key : Option String)
    (download : Except String FileData) (ai : Option String)
    (updateReady : Option String) (now : String) :
    (¬ procFailCond body download updateReady →
      (processNotes body key download ai updateReady now).status = 200 ∧
      (∃ n, (processNotes body key download ai updateReady now).body =
        RespBody.success n) ∧
      (∃ w ∈ (processNotes body key download ai updateReady now).writes,
        w.targetId = noteIdOf body ∧ w.payload.status = some "ready")) ∧
    (procFailCond body download updateReady →
      (processNotes body key download ai updateReady now).status = 500 ∧
      (∃ m, (processNotes body key download ai updateReady now).body =
          RespBody.failure m ∧
        ∀ nid, noteIdOf body = some nid →
          (⟨some nid, errorPayload m now⟩ : NotesWrite) ∈
            (processNotes body key download ai updateReady now).writes)) := by
  cases body with
  | parseFail m =>
    constructor
    · intro h
      exact absurd trivial h
    · intro _
      refine ⟨rfl, m, rfl, ?_⟩
      intro nid hnid
      simp [noteIdOf] at hnid
  | parsed r =>
    obtain ⟨fp, uid, nid⟩ := r
    cases fp with
    | none =>
      constructor
      · intro h
        exact absurd (Or.inl rfl) h
      · intro _
        refine ⟨by simp [processNotes], "Missing filePath or userId", by simp [processNotes], ?_⟩
        intro nid2 hnid
        simp [noteIdOf] at hnid
        subst hnid
        simp [processNotes, errorWrites, errorPayload]
    | some fp =>
      cases uid with
      | none =>
        constructor
        · intro h
          exact absurd (Or.inr (Or.inl rfl)) h
        · intro _
          refine ⟨by simp [processNotes], "Missing filePath or userId", by simp [processNotes], ?_⟩
          intro nid2 hnid
          simp [noteIdOf] at hnid
          subst hnid
          simp [processNotes, errorWrites, errorPayload]
      | some uid =>
        cases download with
        | error e =>
          constructor
          · intro h
            exact absurd (Or.inr (Or.inr (Or.inl ⟨e, rfl⟩))) h
          · intro _
            refine ⟨by simp [processNotes], "Failed to download file: " ++ e,
              by simp [processNotes], ?_⟩
            intro nid2 hnid
            simp [noteIdOf] at hnid
            subst hnid
            simp [processNotes, errorWrites, errorPayload]
        | ok fd =>
          cases updateReady with
          | none =>
            constructor
            · intro _
              refine ⟨by simp [processNotes],
                ⟨(finalContent key ai
                  (if strToLower (lastSplit '.' (lastSplit '/' fp)) = "pdf"
                    then (⟨pdfExtract fd.bytes⟩ : String)
                    else nonPdfExtract fd.decodedUtf8)
                  (lastSplit '/' fp) (strToLower (lastSplit '.' (lastSplit '/' fp)))).length,
                  by simp [processNotes]⟩, ?_⟩
              refine ⟨⟨nid, readyPayload
                (finalContent key ai
                  (if strToLower (lastSplit '.' (lastSplit '/' fp)) = "pdf"
                    then (⟨pdfExtract fd.bytes⟩ : String)
                    else nonPdfExtract fd.decodedUtf8)
                  (lastSplit '/' fp) (strToLower (lastSplit '.' (lastSplit '/' fp))))
                (strTake 50000 (if strToLower (lastSplit '.' (lastSplit '/' fp)) = "pdf"
                    then (⟨pdfExtract fd.bytes⟩ : String)
                    else nonPdfExtract fd.decodedUtf8)) now⟩, ?_, rfl, ?_⟩
              · cases nid with
                | none => simp [processNotes]
                | some n => simp [processNotes]
              · simp [noteIdOf, readyPayload]
            · intro h
              rcases h with h | h | ⟨e, he⟩ | ⟨e, he⟩
              · exact absurd h (by simp)
              · exact absurd h (by simp)
              · exact absurd he (by simp)
              · exact absurd he (by simp)
          | some err =>
            constructor
            · intro h
              exact absurd (Or.inr (Or.inr (Or.inr ⟨err, rfl⟩))) h
            · intro _
              refine ⟨by simp [processNotes], err, by simp [processNotes], ?_⟩
              intro nid2 hnid
              simp [noteIdOf] at hnid
              subst hnid
              simp [processNotes, errorWrites, errorPayload]

/-- Witness: `process_notes_outcomes` at a request lacking `filePath` (with a
noteId) and at a complete PDF request with every external step succeeding. -/
theorem process_notes_outcomes_witness :
    (processNotes (ReqBody.parsed ⟨none, none, some "n1"⟩) none
      (Except.error "boom") none none "T").status = 500 ∧
    (processNotes (ReqBody.parsed ⟨some "u/f.pdf", some "u", some "n1"⟩) none
      (Except.ok ⟨[], ""⟩) none none "T").status = 200 :=
  ⟨((process_notes_outcomes (ReqBody.parsed ⟨none, none, some "n1"⟩) none
      (Except.error "boom") none none "T").2 (Or.inl rfl)).1,
    ((process_notes_outcomes (ReqBody.parsed ⟨some "u/f.pdf", some "u", some "n1"⟩)
      none (Except.ok ⟨[], ""⟩) none none "T").1 (by
        rintro (h | h | ⟨e, he⟩ | ⟨e, he⟩) <;> simp_all)).1⟩

/-- **C3.**  Every status value any repository operation writes to a note row
is one of the four words of the spec: the upload flow inserts rows with status
`processing`, the process-notes handler only writes `processing`, `ready` or
`error`, and the dashboard retry writes `processing`. -/
theorem note_status_allowed (body : ReqBody) (key : Option String)
    (download : Except String FileData) (ai : Option String)
    (updateReady : Option String) (now : String)
    (uid fn ft : String) (fs : Nat) (fu : String) :
    (∀ w ∈ (processNotes body key download ai updateReady now).writes,
      ∀ st, w.payload.status = some st → st ∈ allowedStatuses) ∧
    (uploadInsert uid fn ft fs fu).status = "processing" ∧
    (uploadInsert uid fn ft fs fu).status ∈ allowedStatuses ∧
    (∀ st, retryPayload.status = some st → st ∈ allowedStatuses) := by
  refine ⟨?_, rfl, by simp [uploadInsert, allowedStatuses], ?_⟩
  · intro w hw st hst
    rcases processNotes_writes_shape body key download ai updateReady now w hw with
      h | ⟨p, o, h, _⟩ | ⟨m, h⟩
    · rw [h] at hst
      simp [processingPayload] at hst
      simp [← hst, allowedStatuses]
    · rw [h] at hst
      simp [readyPayload] at hst
      simp [← hst, allowedStatuses]
    · rw [h] at hst
      simp [errorPayload] at hst
      simp [← hst, allowedStatuses]
  · intro st hst
    simp [retryPayload] at hst
    simp [← hst, allowedStatuses]

/-- Witness: `note_status_allowed` at the missing-filePath request, whose only
write carries status `error`. -/
theorem note_status_allowed_witness : "error" ∈ allowedStatuses :=
  (note_status_allowed (ReqBody.parsed ⟨none, none, some "n1"⟩) none
      (Except.error "x") none none "T" "u" "f.pdf" "application/pdf" 0 "url").1
    ⟨some "n1", errorPayload "Missing filePath or userId" "T"⟩
    (by simp [processNotes, errorWrites]) "error" rfl

/-- **C6.**  A status-ready update issued by process-notes writes only the
fields `status`, `processed_content`, `original_content` and `updated_at`;
applying it to any note row leaves `file_name`, `file_type`, `file_size`,
`file_url`, `user_id` and `created_at` unchanged, whatever the input file and
AI outcome. -/
theorem ready_update_frame (body : ReqBody) (key : Option String)
    (download : Except String FileData) (ai : Option String)
    (updateReady : Option String) (now : String) (row : NoteRow) :
    ∀ w ∈ (processNotes body key download ai updateReady now).writes,
      w.payload.status = some "ready" →
      w.payload.error_message = none ∧
      (∃ p, w.payload.processed_content = some p) ∧
      (∃ o, w.payload.original_content = some o) ∧
      w.payload.updated_at = some now ∧
      (applyPayload w.payload row).file_name = row.file_name ∧
      (applyPayload w.payload row).file_type = row.file_type ∧
      (applyPayload w.payload row).file_size = row.file_size ∧
      (applyPayload w.payload row).file_url = row.file_url ∧
      (applyPayload w.payload row).user_id = row.user_id ∧
      (applyPayload w.payload row).created_at = row.created_at := by
  intro w hw hst
  rcases processNotes_writes_shape body key download ai updateReady now w hw with
    h | ⟨p, o, h, _⟩ | ⟨m, h⟩
  · rw [h] at hst
    simp [processingPayload] at hst
  · rw [h]
    simp [readyPayload, applyPayload]
  · rw [h] at hst
    simp [errorPayload] at hst

/-- Witness: `ready_update_frame` at a successful PDF request over a concrete
row. -/
theorem ready_update_frame_witness :
    (applyPayload (readyPayload (fallbackContent "f.pdf" "pdf") "" "T")
      ⟨"id", "u", "fn", "ft", 0, "url", "processing", none, none, none, "C", "U"⟩).file_name
      = "fn" :=
  ((ready_update_frame (ReqBody.parsed ⟨some "u/f.pdf", some "u", none⟩) none
      (Except.ok ⟨[], ""⟩) none none "T"
      ⟨"id", "u", "fn", "ft", 0, "url", "processing", none, none, none, "C", "U"⟩)
    ⟨none, readyPayload (fallbackContent "f.pdf" "pdf") "" "T"⟩
    (by decide)
    rfl).2.2.2.2.1

/-- **C8.**  Whenever process-notes writes status `ready`, the
`processed_content` written in the same update has length at least 20: short
or empty results are replaced by the fallback markdown document first. -/
theorem ready_content_min_length (body : ReqBody) (key : Option String)
    (download : Except String FileData) (ai : Option String)
    (updateReady : Option String) (now : String) :
    ∀ w ∈ (processNotes body key download ai updateReady now).writes,
      w.payload.status = some "ready" →
      ∃ p, w.payload.processed_content = some p ∧ 20 ≤ p.length := by
  intro w hw hst
  rcases processNotes_writes_shape body key download ai updateReady now w hw with
    h | ⟨p, o, h, hl⟩ | ⟨m, h⟩
  · rw [h] at hst
    simp [processingPayload] at hst
  · rw [h]
    exact ⟨p, by simp [readyPayload], hl⟩
  · rw [h] at hst
    simp [errorPayload] at hst

/-- Witness: `ready_content_min_length` at a successful PDF request whose
extraction is empty, so the fallback document is written. -/
theorem ready_content_min_length_witness :
    ∃ p, (readyPayload (fallbackContent "f.pdf" "pdf") "" "T").processed_content
      = some p ∧ 20 ≤ p.length :=
  (ready_content_min_length (ReqBody.parsed ⟨some "u/f.pdf", some "u", none⟩) none
      (Except.ok ⟨[], ""⟩) none none "T")
    ⟨none, readyPayload (fallbackContent "f.pdf" "pdf") "" "T"⟩
    (by decide)
    rfl

/-! ## Claims C5 and C7 -/

lemma chatMsg_eta (m : ChatMsg) :
    ({ role := m.role, content := m.content } : ChatMsg) = m := rfl

lemma buildMessages_eq_claim (m : String) (nc : Option String) (h : List ChatMsg) :
    buildMessages m nc h = claimMessages m nc h := by
  unfold buildMessages claimMessages
  have hmap : (h.map fun x => ({ role := x.role, content := x.content } : ChatMsg)) = h := by
    induction h with
    | nil => rfl
    | cons a as ih => simp [ih]
  rw [hmap]

/-- **C5.**  The message list math-solver forwards to the completion endpoint
is exactly: one system message (the tutor template with `noteContent`
interpolated, or the fixed no-notes notice when `noteContent` is null or
empty), then every entry of `conversationHistory` in its original order with
role and content unchanged, then one user message holding the request's
`message`; nothing else is added and no content is altered. -/
theorem math_solver_messages (m : String) (nc : Option String)
    (h : List ChatMsg) (key : Option String) (ai : AiCall) :
    buildMessages m nc h = claimMessages m nc h ∧
    (buildMessages m nc h).head? =
      some { role := "system", content := mathSystemPrompt nc } ∧
    ((buildMessages m nc h).drop 1).dropLast = h ∧
    (buildMessages m nc h).getLast? = some { role := "user", content := m } ∧
    ((nc = none ∨ nc = some "") →
      mathSystemPrompt nc = tutorPromptPrefix ++ noNotesNotice ++ tutorPromptSuffix) ∧
    (key.isSome →
      (mathSolver (SolverBody.parsed m nc h) key ai).forwarded =
        some (claimMessages m nc h)) := by
  have hlast : ∀ (x a : ChatMsg) (l : List ChatMsg),
      (x :: (l ++ [a])).getLast? = some a := by
    intro x a l
    have hx : x :: (l ++ [a]) = (x :: l) ++ [a] := rfl
    rw [hx, List.getLast?_concat]
  have hdrop : ∀ (x a : ChatMsg) (l : List ChatMsg),
      ((x :: (l ++ [a])).drop 1).dropLast = l := by
    intro x a l
    simp
  refine ⟨buildMessages_eq_claim m nc h, ?_, ?_, ?_, ?_, ?_⟩
  · rw [buildMessages_eq_claim]
    rfl
  · rw [buildMessages_eq_claim]
    unfold claimMessages
    exact hdrop _ _ _
  · rw [buildMessages_eq_claim]
    unfold claimMessages
    exact hlast _ _ _
  · rintro (hnc | hnc) <;> subst hnc <;> rfl
  · intro hk
    cases key with
    | none => simp at hk
    | some k =>
      rw [← buildMessages_eq_claim]
      cases ai with
      | fetchFail msg => rfl
      | jsonFail msg => rfl
      | resp st content =>
        simp only [mathSolver]
        split_ifs <;> rfl

/-- Witness: `math_solver_messages` at a one-element history. -/
theorem math_solver_messages_witness :
    mathSystemPrompt none = tutorPromptPrefix ++ noNotesNotice ++ tutorPromptSuffix ∧
    (mathSolver (SolverBody.parsed "q" none [⟨"user", "hi"⟩]) (some "k")
        (AiCall.resp 200 (some "ans"))).forwarded =
      some (claimMessages "q" none [⟨"user", "hi"⟩]) :=
  ⟨(math_solver_messages "q" none [⟨"user", "hi"⟩] (some "k")
      (AiCall.resp 200 (some "ans"))).2.2.2.2.1 (Or.inl rfl),
    (math_solver_messages "q" none [⟨"user", "hi"⟩] (some "k")
      (AiCall.resp 200 (some "ans"))).2.2.2.2.2 rfl⟩

/-- **C7.**  Both serverless handlers are stateless: modelled as pure
functions of the request body and every external interaction (environment,
storage download, AI gateway, database update results, clock), two runs with
identical inputs produce identical responses and identical write sequences. -/
theorem handlers_stateless (b1 b2 : ReqBody) (k1 k2 : Option String)
    (d1 d2 : Except String FileData) (a1 a2 : Option String)
    (u1 u2 : Option String) (n1 n2 : String)
    (sb1 sb2 : SolverBody) (sk1 sk2 : Option String) (sa1 sa2 : AiCall)
    (hb : b1 = b2) (hk : k1 = k2) (hd : d1 = d2) (ha : a1 = a2)
    (hu : u1 = u2) (hn : n1 = n2)
    (hsb : sb1 = sb2) (hsk : sk1 = sk2) (hsa : sa1 = sa2) :
    processNotes b1 k1 d1 a1 u1 n1 = processNotes b2 k2 d2 a2 u2 n2 ∧
    mathSolver sb1 sk1 sa1 = mathSolver sb2 sk2 sa2 := by
  subst hb hk hd ha hu hn hsb hsk hsa
  exact ⟨rfl, rfl⟩

/-- Witness: `handlers_stateless` at concrete equal inputs. -/
theorem handlers_stateless_witness :
    processNotes (ReqBody.parseFail "bad json") none (Except.error "e") none none "T" =
      processNotes (ReqBody.parseFail "bad json") none (Except.error "e") none none "T" ∧
    mathSolver (SolverBody.parseFail "bad json") none (AiCall.fetchFail "f") =
      mathSolver (SolverBody.parseFail "bad json") none (AiCall.fetchFail "f") :=
  handlers_stateless _ _ _ _ _ _ _ _ _ _ _ _ _ _ _ _ _ _
    rfl rfl rfl rfl rfl rfl rfl rfl rfl

/-! ## Claim C4 -/

lemma wtMatchHead_spec {s attrs content rest : List Char}
    (h : wtMatchHead s = some (attrs, content, rest)) :
    (∀ x ∈ attrs, (x != '>') = true) ∧ (∀ x ∈ content, (x != '<') = true) ∧
      content ≠ [] := by
  unfold wtMatchHead at h
  split at h
  · rename_i s1
    split at h
    · rename_i heq1
      rename_i s2
      by_cases hemp : (s2.takeWhile fun c => c != '<').isEmpty
      · rw [if_pos hemp] at h; simp at h
      · rw [if_neg hemp] at h
        split at h
        · rename_i rest2 heq2
          simp only [Option.some.injEq, Prod.mk.injEq] at h
          obtain ⟨h1, h2, h3⟩ := h
          subst h1
          subst h2
          refine ⟨fun x hx => ?_, fun x hx => ?_, ?_⟩
          · have hh := List.mem_takeWhile_imp hx
            exact hh
          · have hh := List.mem_takeWhile_imp hx
            exact hh
          · intro hc
            rw [hc] at hemp
            simp at hemp
        · simp at h
    · simp at h
  · simp at h

lemma stripTags_cons_ne (c : Char) (cs : List Char) (h : ¬ c = '<') :
    stripTags (c :: cs) = c :: stripTags cs := by
  rw [stripTags]
  exact fun hc => absurd hc h

lemma stripTags_passthrough (xs tail : List Char) (h : ∀ x ∈ xs, ¬ x = '<') :
    stripTags (xs ++ tail) = xs ++ stripTags tail := by
  induction xs with
  | nil => rfl
  | cons c cs ih =>
    rw [List.cons_append, stripTags_cons_ne c _ (h c (List.mem_cons_self _ _)),
      ih (fun x hx => h x (List.mem_cons_of_mem _ hx))]
    rfl

lemma stripTags_close :
    stripTags ('<' :: '/' :: 'w' :: ':' :: 't' :: '>' :: []) = [] := by
  simp [stripTags, List.dropWhile, List.takeWhile]

lemma stripTags_wtFull (attrs content : List Char)
    (ha : ∀ x ∈ attrs, (x != '>') = true)
    (hc : ∀ x ∈ content, (x != '<') = true)
    (hne : content ≠ []) :
    stripTags (wtFull (attrs, content)) = content := by
  have hfull : wtFull (attrs, content) = '<' :: ('w' :: ':' :: 't' :: (attrs ++ '>' ::
      (content ++ ('<' :: '/' :: 'w' :: ':' :: 't' :: '>' :: [])))) := by
    simp [wtFull]
  rw [hfull]
  have hdw : ('w' :: ':' :: 't' :: (attrs ++ '>' ::
      (content ++ ('<' :: '/' :: 'w' :: ':' :: 't' :: '>' :: [])))).dropWhile
        (fun c => c != '>') =
      '>' :: (content ++ ('<' :: '/' :: 'w' :: ':' :: 't' :: '>' :: [])) := by
    rw [List.dropWhile_cons_of_pos (by decide), List.dropWhile_cons_of_pos (by decide),
      List.dropWhile_cons_of_pos (by decide), List.dropWhile_append_of_pos ha,
      List.dropWhile_cons_of_neg (by decide)]
  have htw : ¬ (('w' :: ':' :: 't' :: (attrs ++ '>' ::
      (content ++ ('<' :: '/' :: 'w' :: ':' :: 't' :: '>' :: [])))).takeWhile
        (fun c => c != '>')).isEmpty = true := by
    rw [List.takeWhile_cons_of_pos (by decide)]
    simp
  rw [stripTags, hdw]
  simp only [htw, if_false]
  rw [stripTags_passthrough content _ (fun x hx => by
    have hb := hc x hx
    simpa using hb)]
  rw [stripTags_close]
  simp

lemma wtScan_spec : ∀ (l : List Char), ∀ m ∈ wtScan l,
    (∀ x ∈ m.1, (x != '>') = true) ∧ (∀ x ∈ m.2, (x != '<') = true) ∧
      m.2 ≠ [] := by
  intro l
  induction l using wtScan.induct with
  | case1 => simp [wtScan]
  | case2 c cs attrs content rest heq ih =>
    intro m hm
    rw [show wtScan (c :: cs) = (attrs, content) :: wtScan rest from by
      rw [wtScan, heq]] at hm
    rcases List.mem_cons.mp hm with hm | hm
    · subst hm
      exact wtMatchHead_spec heq
    · exact ih m hm
  | case3 c cs heq ih =>
    intro m hm
    rw [show wtScan (c :: cs) = wtScan cs from by rw [wtScan, heq]] at hm
    exact ih m hm

/-- **C4.**  For non-PDF files the handler decodes the bytes as UTF-8 and
then: when the text has `<w:t...>content</w:t>` matches, the extracted text is
exactly those matches with every XML tag removed, joined by single spaces —
equivalently, exactly the captured contents joined by single spaces; otherwise
it is the decoded text with tag-like spans and non-printable characters (other
than newline) replaced by spaces, whitespace runs collapsed, and the ends
trimmed. -/
theorem nonpdf_extract_spec (text : String) :
    nonPdfExtract text = nonPdfClaimExtract text ∧
    (wtScan text.data = [] →
      nonPdfExtract text =
        ⟨trimWs (collapseWs (nonPrintToSpace (tagsToSpace text.data)))⟩) := by
  constructor
  · unfold nonPdfExtract nonPdfClaimExtract
    by_cases hms : (wtScan text.data).isEmpty
    · rw [if_pos hms, if_pos hms]
    · rw [if_neg hms, if_neg hms]
      have hmap : (wtScan text.data).map (fun m => stripTags (wtFull m)) =
          (wtScan text.data).map (fun m => m.2) := by
        apply List.map_congr_left
        intro m hm
        rcases wtScan_spec text.data m hm with ⟨ha, hc, hne⟩
        obtain ⟨a, c⟩ := m
        exact stripTags_wtFull a c ha hc hne
      rw [hmap]
  · intro h
    unfold nonPdfExtract
    rw [if_pos (by simp [h])]

/-- Witness: `nonpdf_extract_spec` at the empty decoded text, which has no
`<w:t>` match. -/
theorem nonpdf_extract_spec_witness :
    nonPdfExtract "" =
      ⟨trimWs (collapseWs (nonPrintToSpace (tagsToSpace ("" : String).data)))⟩ :=
  (nonpdf_extract_spec "").2 (by rw [show ("" : String).data = [] from rfl, wtScan])

/-! ## Claim C10: MathRenderer.processContent

The four math-rendering replacements at the head of `processContent` wrap
output of the external `katex.renderToString` and are modelled as one
arbitrary pre-pass `mathStages`; the claimed balance property is proved for
every such pre-pass, hence in particular for the composition the code uses.
The step-label replacements, the unclosed-div cleanup, and the bold, italic
and newline replacements are modelled exactly. -/

/-- The line terminators that JavaScript regex `.` does not match. -/
def isLineTerm (c : Char) : Bool :=
  [0x0A, 0x0D, 0x2028, 0x2029].contains c.toNat

/-- The opening tag counted by the cleanup step. -/
def openDiv : List Char := "<div class=\"solution-step\">".data

/-- The closing tag counted by the cleanup step. -/
def closeDiv : List Char := "</div>".data

/-- Occurrences of `pat` in a list, counting every matching position. -/
def count (pat : List Char) : List Char → Nat
  | [] => 0
  | c :: cs => (if pat.isPrefixOf (c :: cs) then 1 else 0) + count pat cs

/-- Occurrences of `pat`, leftmost and non-overlapping, as the global regex
match of the source counts them. -/
def countD (pat : List Char) : List Char → Nat
  | [] => 0
  | c :: cs =>
    if pat.isPrefixOf (c :: cs) then 1 + countD pat (cs.drop (pat.length - 1))
    else countD pat cs
termination_by l => l.length
decreasing_by
  · simp only [List.length_drop, List.length_cons]
    omega
  · exact Nat.lt_succ_self _

/-- One case-insensitive fixed-pattern global replace (`pat` in lowercase). -/
def replaceLabel (pat rep : List Char) : List Char → List Char
  | [] => []
  | c :: cs =>
    if (List.take pat.length (c :: cs)).map Char.toLower = pat then
      rep ++ replaceLabel pat rep (cs.drop (pat.length - 1))
    else c :: replaceLabel pat rep cs
termination_by l => l.length
decreasing_by
  · simp only [List.length_drop, List.length_cons]
    omega
  · exact Nat.lt_succ_self _

/-- The solution-step span the label replacements insert. -/
def labelRep (label : String) : List Char :=
  ("<div class=\"solution-step\"><span class=\"solution-step-label\">"
    ++ label ++ "</span>").data

/-- The same span preceded by a closing tag. -/
def labelRepClose (label : String) : List Char :=
  "</div>".data ++ labelRep label

/-- Replacement of `/\*\*Step (\d+):\*\*/gi` with the digits interpolated. -/
def stepRep (digits : List Char) : List Char :=
  "</div><div class=\"solution-step\"><span class=\"solution-step-label\">Step ".data
    ++ digits ++ "</span>".data

/-- The `/\*\*Step (\d+):\*\*/gi` global replace. -/
def replaceStep : List Char → List Char
  | '*' :: '*' :: rest =>
    if (List.take 5 rest).map Char.toLower = "step ".data then
      if h0 : ((rest.drop 5).takeWhile Char.isDigit) ≠ [] then
        match h : ((rest.drop 5).drop ((rest.drop 5).takeWhile Char.isDigit).length) with
        | ':' :: '*' :: '*' :: rest2 =>
          stepRep ((rest.drop 5).takeWhile Char.isDigit) ++ replaceStep rest2
        | _ => '*' :: replaceStep ('*' :: rest)
      else '*' :: replaceStep ('*' :: rest)
    else '*' :: replaceStep ('*' :: rest)
  | c :: cs => c :: replaceStep cs
  | [] => []
termination_by l => l.length
decreasing_by
  · have h1 : ((rest.drop 5).drop
        ((rest.drop 5).takeWhile Char.isDigit).length).length ≤ rest.length := by
      calc ((rest.drop 5).drop ((rest.drop 5).takeWhile Char.isDigit).length).length
          ≤ (rest.drop 5).length := List.length_drop .. ▸ Nat.sub_le _ _
        _ ≤ rest.length := List.length_drop .. ▸ Nat.sub_le _ _
    rw [h] at h1
    simp at h1 ⊢
    omega
  · simp
  · simp
  · simp
  · simp

/-- The five step-label replacements, in source order. -/
def labelsStage (s : List Char) : List Char :=
  replaceLabel "**answer:**".data (labelRepClose "Answer")
    (replaceStep
      (replaceLabel "**solution:**".data (labelRepClose "Solution")
        (replaceLabel "**formula:**".data (labelRepClose "Formula")
          (replaceLabel "**given:**".data (labelRep "Given") s))))

/-- The unclosed-div cleanup: count both tags and append the missing closers. -/
def divCleanup (s : List Char) : List Char :=
  if countD closeDiv s < countD openDiv s then
    s ++ (List.replicate (countD openDiv s - countD closeDiv s) closeDiv).flatten
  else s

/-- Find the lazy close of `/\*\*(.+?)\*\*/` after an opening `**`: the
shortest non-empty line-terminator-free span followed by `**`. -/
def fcBold : List Char → List Char → Option (List Char × List Char)
  | acc, c :: d :: rest =>
    if c = '*' ∧ d = '*' ∧ acc ≠ [] then some (acc.reverse, rest)
    else if isLineTerm c then none
    else fcBold (c :: acc) (d :: rest)
  | _, _ => none

lemma fcBold_rest_lt : ∀ (acc s x rest : List Char),
    fcBold acc s = some (x, rest) → rest.length < s.length := by
  intro acc s
  induction acc, s using fcBold.induct with
  | case1 acc2 c d rest hc =>
    intro x rest3 h
    rw [fcBold, if_pos hc] at h
    simp at h
    simp [← h.2]
    omega
  | case2 acc2 c d rest hc hl =>
    intro x rest3 h
    rw [fcBold, if_neg hc, if_pos hl] at h
    simp at h
  | case3 acc2 c d rest hc hl ih =>
    intro x rest3 h
    rw [fcBold, if_neg hc, if_neg hl] at h
    have := ih x rest3 h
    simp at this ⊢
    omega
  | case4 acc2 s2 hs =>
    intro x rest3 h
    rw [fcBold] at h
    · simp at h
    · exact hs

/-- `result.replace(/\*\*(.+?)\*\*/g, "<strong>$1</strong>")`. -/
def boldR : List Char → List Char
  | '*' :: '*' :: rest =>
    match h : fcBold [] rest with
    | some (x, rest2) =>
      "<strong>".data ++ x ++ "</strong>".data ++ boldR rest2
    | none => '*' :: boldR ('*' :: rest)
  | c :: cs => c :: boldR cs
  | [] => []
termination_by l => l.length
decreasing_by
  · have := fcBold_rest_lt [] rest x rest2 h
    simp
    omega
  · simp
  · simp

/-- Find the lazy close of `/\*(.+?)\*/` after an opening `*`. -/
def fcItal : List Char → List Char → Option (List Char × List Char)
  | acc, c :: rest =>
    if c = '*' ∧ acc ≠ [] then some (acc.reverse, rest)
    else if isLineTerm c then none
    else fcItal (c :: acc) rest
  | _, [] => none

lemma fcItal_rest_lt : ∀ (acc s x rest : List Char),
    fcItal acc s = some (x, rest) → rest.length < s.length := by
  intro acc s
  induction acc, s using fcItal.induct with
  | case1 acc2 c rest hc =>
    intro x rest3 h
    rw [fcItal, if_pos hc] at h
    simp at h
    simp [← h.2]
  | case2 acc2 c rest hc hl =>
    intro x rest3 h
    rw [fcItal, if_neg hc, if_pos hl] at h
    simp at h
  | case3 acc2 c rest hc hl ih =>
    intro x rest3 h
    rw [fcItal, if_neg hc, if_neg hl] at h
    have := ih x rest3 h
    simp at this ⊢
    omega
  | case4 acc2 =>
    intro x rest3 h
    rw [fcItal] at h
    simp at h

/-- `result.replace(/\*(.+?)\*/g, "<em>$1</em>")`. -/
def italR : List Char → List Char
  | '*' :: rest =>
    match h : fcItal [] rest with
    | some (x, rest2) => "<em>".data ++ x ++ "</em>".data ++ italR rest2
    | none => '*' :: italR rest
  | c :: cs => c :: italR cs
  | [] => []
termination_by l => l.length
decreasing_by
  · have := fcItal_rest_lt [] rest x rest2 h
    simp
    omega
  · simp
  · simp

/-- `result.replace(/\n/g, "<br>")`. -/
def brR : List Char → List Char
  | '\n' :: cs => '<' :: 'b' :: 'r' :: '>' :: brR cs
  | c :: cs => c :: brR cs
  | [] => []

/-- `MathRenderer.processContent`: the math stages (external `katex` renders,
abstracted as `mathStages`), the step-label replacements, the unclosed-div
cleanup, then the bold, italic and newline replacements. -/
def processContent (mathStages : List Char → List Char) (input : List Char) :
    List Char :=
  brR (italR (boldR (divCleanup (labelsStage (mathStages input)))))

/-- The boolean prefix test agrees with the prefix relation. -/
lemma ipo_iff (l1 l2 : List Char) : l1.isPrefixOf l2 = true ↔ l1 <+: l2 :=
  List.isPrefixOf_iff_prefix

/-- A pattern prefix of `a ++ b` longer than `a` splits as `a` plus a
non-empty prefix of `b`. -/
lemma pat_split {pat a b : List Char} (h : pat <+: a ++ b) (hl : a.length < pat.length) :
    ∃ u, pat = a ++ u ∧ u ≠ [] ∧ u <+: b := by
  have ha : a <+: pat :=
    List.prefix_of_prefix_length_le (List.prefix_append a b) h (Nat.le_of_lt hl)
  have ha2 := ha
  obtain ⟨u, hu⟩ := ha2
  refine ⟨u, hu.symm, ?_, ?_⟩
  · intro he
    rw [he, List.append_nil] at hu
    rw [hu] at hl
    exact Nat.lt_irrefl _ hl
  · exact (List.prefix_append_right_inj a).mp (hu ▸ h)

lemma count_cons (pat : List Char) (c : Char) (cs : List Char) :
    count pat (c :: cs) = (if pat <+: c :: cs then 1 else 0) + count pat cs := by
  rw [count]
  by_cases h : pat <+: c :: cs
  · rw [if_pos h, if_pos ((ipo_iff _ _).mpr h)]
  · rw [if_neg h, if_neg (fun hb => h ((ipo_iff _ _).mp hb))]

/-- A position whose character differs from the pattern head matches nothing. -/
lemma count_cons_ne (p0 : Char) (pt : List Char) (c : Char) (cs : List Char)
    (hc : c ≠ p0) : count (p0 :: pt) (c :: cs) = count (p0 :: pt) cs := by
  rw [count_cons, if_neg, Nat.zero_add]
  intro h
  exact hc (List.cons_prefix_cons.mp h).1.symm

/-- Prepending characters that never equal the pattern head adds no match. -/
lemma count_ltfree (p0 : Char) (pt : List Char) :
    ∀ (ta b : List Char), (∀ x ∈ ta, x ≠ p0) →
      count (p0 :: pt) (ta ++ b) = count (p0 :: pt) b := by
  intro ta
  induction ta with
  | nil => intro b h; rfl
  | cons c ta ih =>
    intro b h
    rw [List.cons_append, count_cons_ne _ _ _ _ (h c (List.mem_cons_self c ta))]
    exact ih b (fun x hx => h x (List.mem_cons_of_mem c hx))

/-- Splitting a count at a boundary character that does not occur in the
pattern tail: no occurrence can span the boundary. -/
lemma count_append_split (p0 : Char) (pt : List Char) (q : Char)
    (hq : q ∉ pt) :
    ∀ (a b : List Char),
      count (p0 :: pt) (a ++ q :: b) =
        count (p0 :: pt) a + count (p0 :: pt) (q :: b) := by
  intro a
  induction a with
  | nil => intro b; simp [count]
  | cons c a ih =>
    intro b
    rw [List.cons_append, count_cons, count_cons, ih b]
    have hiff : (p0 :: pt <+: c :: (a ++ q :: b)) ↔ (p0 :: pt <+: c :: a) := by
      constructor
      · intro h
        rw [show (c :: (a ++ q :: b)) = (c :: a) ++ q :: b from rfl] at h
        by_cases hl : (p0 :: pt).length ≤ (c :: a).length
        · exact (List.isPrefix_append_of_length hl).mp h
        · obtain ⟨u, hu, hne, hub⟩ := pat_split h (Nat.lt_of_not_le hl)
          rw [List.cons_append] at hu
          have hpt : pt = a ++ u := (List.cons.injEq _ _ _ _ ▸ hu).2
          match u, hne with
          | v :: u2, _ =>
            have hv : v = q := (List.cons_prefix_cons.mp hub).1
            exact absurd (hpt ▸ List.mem_append_right a (hv ▸ List.mem_cons_self v u2)) hq
      · intro h
        exact h.trans (List.prefix_append (c :: a) (q :: b))
    by_cases h : p0 :: pt <+: c :: a
    · rw [if_pos h, if_pos (hiff.mpr h)]
      omega
    · rw [if_neg h, if_neg (fun hx => h (hiff.mp hx))]
      omega

/-- Dropping a leading inserted segment that starts with the pattern head but
is prefix-incomparable with the pattern tail. -/
lemma count_seg_drop (p0 : Char) (pt ta : List Char)
    (hta : ∀ x ∈ ta, x ≠ p0) (h1 : ¬ ta <+: pt) (h2 : ¬ pt <+: ta) :
    ∀ z : List Char,
      count (p0 :: pt) ((p0 :: ta) ++ z) = count (p0 :: pt) z := by
  intro z
  rw [List.cons_append, count_cons, count_ltfree p0 pt ta z hta]
  rw [if_neg, Nat.zero_add]
  intro h
  have hp : pt <+: ta ++ z := (List.cons_prefix_cons.mp h).2
  by_cases hl : pt.length ≤ ta.length
  · exact h2 ((List.isPrefix_append_of_length hl).mp hp)
  · obtain ⟨u, hu, hne, hub⟩ := pat_split hp (Nat.lt_of_not_le hl)
    exact h1 ⟨u, hu.symm⟩

/-- For a pattern whose head character never recurs, leftmost non-overlapping
counting agrees with all-positions counting. -/
lemma countD_eq_count (p0 : Char) (pt : List Char) (hq : p0 ∉ pt) :
    ∀ s : List Char, countD (p0 :: pt) s = count (p0 :: pt) s := by
  intro s
  induction s using countD.induct (p0 :: pt) with
  | case1 => simp [countD, count]
  | case2 c cs h ih =>
    rw [countD, if_pos h, count_cons, if_pos ((ipo_iff _ _).mp h)]
    have hp : pt <+: cs := (List.cons_prefix_cons.mp ((ipo_iff _ _).mp h)).2
    obtain ⟨r, hr⟩ := hp
    have hdrop : cs.drop ((p0 :: pt).length - 1) = r := by
      rw [← hr, List.length_cons, Nat.add_sub_cancel, List.drop_left]
    rw [hdrop] at ih
    rw [hdrop, ih, ← hr, count_ltfree p0 pt pt r (fun x hx hx0 => hq (hx0 ▸ hx))]
  | case3 c cs h ih =>
    rw [countD, if_neg h, count_cons, if_neg (fun hx => h ((ipo_iff _ _).mpr hx)), ih]
    omega

lemma boldR_cons_ne (c : Char) (l : List Char) (hc : c ≠ '*') :
    boldR (c :: l) = c :: boldR l := by
  rw [boldR]
  intro rest h1 h2
  exact hc h1

lemma italR_cons_ne (c : Char) (l : List Char) (hc : c ≠ '*') :
    italR (c :: l) = c :: italR l := by
  rw [italR]
  intro h1
  exact hc h1

lemma brR_cons_ne (c : Char) (l : List Char) (hc : c ≠ '\n') :
    brR (c :: l) = c :: brR l := by
  rw [brR]
  intro h1
  exact hc h1

lemma boldR_copy : ∀ (u v : List Char), (∀ x ∈ u, x ≠ '*') →
    boldR (u ++ v) = u ++ boldR v := by
  intro u
  induction u with
  | nil => intro v h; rfl
  | cons c u ih =>
    intro v h
    rw [List.cons_append, boldR_cons_ne c _ (h c (List.mem_cons_self c u)),
      ih v (fun x hx => h x (List.mem_cons_of_mem c hx)), List.cons_append]

lemma italR_copy : ∀ (u v : List Char), (∀ x ∈ u, x ≠ '*') →
    italR (u ++ v) = u ++ italR v := by
  intro u
  induction u with
  | nil => intro v h; rfl
  | cons c u ih =>
    intro v h
    rw [List.cons_append, italR_cons_ne c _ (h c (List.mem_cons_self c u)),
      ih v (fun x hx => h x (List.mem_cons_of_mem c hx)), List.cons_append]

lemma brR_copy : ∀ (u v : List Char), (∀ x ∈ u, x ≠ '\n') →
    brR (u ++ v) = u ++ brR v := by
  intro u
  induction u with
  | nil => intro v h; rfl
  | cons c u ih =>
    intro v h
    rw [List.cons_append, brR_cons_ne c _ (h c (List.mem_cons_self c u)),
      ih v (fun x hx => h x (List.mem_cons_of_mem c hx)), List.cons_append]

lemma boldR_pre_rev : ∀ s : List Char, ∀ pt : List Char, '<' ∉ pt → '*' ∉ pt →
    pt <+: boldR s → pt <+: s := by
  intro s
  induction s using boldR.induct with
  | case1 rest x rest2 heq ih =>
    intro pt h1 h2 hp
    have he : boldR ('*' :: '*' :: rest) =
        '<' :: ("strong>".data ++ x ++ "</strong>".data ++ boldR rest2) := by
      rw [boldR, heq]
      simp
    rw [he] at hp
    cases pt with
    | nil => exact List.nil_prefix
    | cons v pt2 =>
      obtain ⟨rfl, -⟩ := List.cons_prefix_cons.mp hp
      exact absurd (List.mem_cons_self _ _) h1
  | case2 rest heq ih =>
    intro pt h1 h2 hp
    have he : boldR ('*' :: '*' :: rest) = '*' :: boldR ('*' :: rest) := by
      rw [boldR, heq]
    rw [he] at hp
    cases pt with
    | nil => exact List.nil_prefix
    | cons v pt2 =>
      obtain ⟨rfl, -⟩ := List.cons_prefix_cons.mp hp
      exact absurd (List.mem_cons_self _ _) h2
  | case3 c cs h ih =>
    intro pt h1 h2 hp
    have he : boldR (c :: cs) = c :: boldR cs := by
      rw [boldR]
      exact h
    rw [he] at hp
    cases pt with
    | nil => exact List.nil_prefix
    | cons v pt2 =>
      obtain ⟨rfl, hp2⟩ := List.cons_prefix_cons.mp hp
      have hrec := ih pt2 (fun hx => h1 (List.mem_cons_of_mem _ hx))
        (fun hx => h2 (List.mem_cons_of_mem _ hx)) hp2
      exact List.cons_prefix_cons.mpr ⟨rfl, hrec⟩
  | case4 =>
    intro pt h1 h2 hp
    have he : boldR ([] : List Char) = [] := by rw [boldR]
    rw [he, List.prefix_nil] at hp
    rw [hp]

lemma italR_pre_rev : ∀ s : List Char, ∀ pt : List Char, '<' ∉ pt → '*' ∉ pt →
    pt <+: italR s → pt <+: s := by
  intro s
  induction s using italR.induct with
  | case1 rest x rest2 heq ih =>
    intro pt h1 h2 hp
    have he : italR ('*' :: rest) =
        '<' :: ("em>".data ++ x ++ "</em>".data ++ italR rest2) := by
      rw [italR, heq]
      simp
    rw [he] at hp
    cases pt with
    | nil => exact List.nil_prefix
    | cons v pt2 =>
      obtain ⟨rfl, -⟩ := List.cons_prefix_cons.mp hp
      exact absurd (List.mem_cons_self _ _) h1
  | case2 rest heq ih =>
    intro pt h1 h2 hp
    have he : italR ('*' :: rest) = '*' :: italR rest := by
      rw [italR, heq]
    rw [he] at hp
    cases pt with
    | nil => exact List.nil_prefix
    | cons v pt2 =>
      obtain ⟨rfl, -⟩ := List.cons_prefix_cons.mp hp
      exact absurd (List.mem_cons_self _ _) h2
  | case3 c cs h ih =>
    intro pt h1 h2 hp
    have he : italR (c :: cs) = c :: italR cs := by
      rw [italR]
      exact h
    rw [he] at hp
    cases pt with
    | nil => exact List.nil_prefix
    | cons v pt2 =>
      obtain ⟨rfl, hp2⟩ := List.cons_prefix_cons.mp hp
      have hrec := ih pt2 (fun hx => h1 (List.mem_cons_of_mem _ hx))
        (fun hx => h2 (List.mem_cons_of_mem _ hx)) hp2
      exact List.cons_prefix_cons.mpr ⟨rfl, hrec⟩
  | case4 =>
    intro pt h1 h2 hp
    have he : italR ([] : List Char) = [] := by rw [italR]
    rw [he, List.prefix_nil] at hp
    rw [hp]

lemma brR_pre_rev : ∀ s : List Char, ∀ pt : List Char, '<' ∉ pt →
    pt <+: brR s → pt <+: s := by
  intro s
  induction s using brR.induct with
  | case1 cs ih =>
    intro pt h1 hp
    have he : brR ('\n' :: cs) = '<' :: ('b' :: 'r' :: '>' :: brR cs) := by
      rw [brR]
    rw [he] at hp
    cases pt with
    | nil => exact List.nil_prefix
    | cons v pt2 =>
      obtain ⟨rfl, -⟩ := List.cons_prefix_cons.mp hp
      exact absurd (List.mem_cons_self _ _) h1
  | case2 c cs h ih =>
    intro pt h1 hp
    have he : brR (c :: cs) = c :: brR cs := by
      rw [brR]
      exact h
    rw [he] at hp
    cases pt with
    | nil => exact List.nil_prefix
    | cons v pt2 =>
      obtain ⟨rfl, hp2⟩ := List.cons_prefix_cons.mp hp
      have hrec := ih pt2 (fun hx => h1 (List.mem_cons_of_mem _ hx)) hp2
      exact List.cons_prefix_cons.mpr ⟨rfl, hrec⟩
  | case3 =>
    intro pt h1 hp
    have he : brR ([] : List Char) = [] := by rw [brR]
    rw [he, List.prefix_nil] at hp
    rw [hp]

lemma fcBold_split : ∀ (acc s x rest : List Char), fcBold acc s = some (x, rest) →
    ∃ y, x = acc.reverse ++ y ∧ s = y ++ '*' :: '*' :: rest := by
  intro acc s
  induction acc, s using fcBold.induct with
  | case1 acc2 c d rest2 hc =>
    intro x rest3 h
    rw [fcBold, if_pos hc] at h
    simp only [Option.some.injEq, Prod.mk.injEq] at h
    obtain ⟨hc1, hc2, hc3⟩ := hc
    refine ⟨[], by simp [← h.1], ?_⟩
    rw [hc1, hc2, h.2]
    rfl
  | case2 acc2 c d rest2 hc hl =>
    intro x rest3 h
    rw [fcBold, if_neg hc, if_pos hl] at h
    simp at h
  | case3 acc2 c d rest2 hc hl ih =>
    intro x rest3 h
    rw [fcBold, if_neg hc, if_neg hl] at h
    obtain ⟨y, hy1, hy2⟩ := ih x rest3 h
    refine ⟨c :: y, ?_, ?_⟩
    · rw [hy1]
      simp
    · rw [show (c :: y) ++ '*' :: '*' :: rest3 = c :: (y ++ '*' :: '*' :: rest3) from rfl,
        ← hy2]
  | case4 acc2 s2 hs =>
    intro x rest3 h
    rw [fcBold] at h
    · simp at h
    · exact hs

lemma fcItal_split : ∀ (acc s x rest : List Char), fcItal acc s = some (x, rest) →
    ∃ y, x = acc.reverse ++ y ∧ s = y ++ '*' :: rest := by
  intro acc s
  induction acc, s using fcItal.induct with
  | case1 acc2 c rest2 hc =>
    intro x rest3 h
    rw [fcItal, if_pos hc] at h
    simp only [Option.some.injEq, Prod.mk.injEq] at h
    obtain ⟨hc1, hc2⟩ := hc
    refine ⟨[], by simp [← h.1], ?_⟩
    rw [hc1, h.2]
    rfl
  | case2 acc2 c rest2 hc hl =>
    intro x rest3 h
    rw [fcItal, if_neg hc, if_pos hl] at h
    simp at h
  | case3 acc2 c rest2 hc hl ih =>
    intro x rest3 h
    rw [fcItal, if_neg hc, if_neg hl] at h
    obtain ⟨y, hy1, hy2⟩ := ih x rest3 h
    refine ⟨c :: y, ?_, ?_⟩
    · rw [hy1]
      simp
    · rw [show (c :: y) ++ '*' :: rest3 = c :: (y ++ '*' :: rest3) from rfl, ← hy2]
  | case4 acc2 =>
    intro x rest3 h
    rw [fcItal] at h
    simp at h

/-- The bold replacement preserves the occurrence count of any tag-like
pattern: one that starts with the unique \x27<\x27, contains no asterisk, and is
prefix-incomparable with the inserted strong tags. -/
lemma count_boldR (pt : List Char) (hlt : '<' ∉ pt) (hst : '*' ∉ pt)
    (ho1 : ¬ "strong>".data <+: pt) (ho2 : ¬ pt <+: "strong>".data)
    (hc1 : ¬ "/strong>".data <+: pt) (hc2 : ¬ pt <+: "/strong>".data) :
    ∀ s : List Char, count ('<' :: pt) (boldR s) = count ('<' :: pt) s := by
  have hstar : ∀ cs : List Char, count ('<' :: pt) ('*' :: cs) = count ('<' :: pt) cs :=
    fun cs => count_cons_ne '<' pt '*' cs (by decide)
  intro s
  induction s using boldR.induct with
  | case1 rest x rest2 heq ih =>
    obtain ⟨y, hy1, hy2⟩ := fcBold_split [] rest x rest2 heq
    simp only [List.reverse_nil, List.nil_append] at hy1
    subst hy1
    have he : boldR ('*' :: '*' :: rest) =
        ('<' :: "strong>".data) ++ x ++ ('<' :: "/strong>".data) ++ boldR rest2 := by
      rw [boldR, heq]
    rw [he, List.append_assoc, List.append_assoc,
      count_seg_drop '<' pt "strong>".data (by decide) ho1 ho2,
      show ('<' :: "/strong>".data) ++ boldR rest2 =
        '<' :: ("/strong>".data ++ boldR rest2) from rfl,
      count_append_split '<' pt '<' hlt x _,
      show ('<' :: ("/strong>".data ++ boldR rest2)) =
        ('<' :: "/strong>".data) ++ boldR rest2 from rfl,
      count_seg_drop '<' pt "/strong>".data (by decide) hc1 hc2, ih,
      hstar, hstar, hy2, count_append_split '<' pt '*' hst x _, hstar, hstar]
  | case2 rest heq ih =>
    have he : boldR ('*' :: '*' :: rest) = '*' :: boldR ('*' :: rest) := by
      rw [boldR, heq]
    rw [he]
    simp only [hstar]
    rw [ih, hstar]
  | case3 c cs h ih =>
    have he : boldR (c :: cs) = c :: boldR cs := by
      rw [boldR]
      exact h
    rw [he]
    by_cases hc : c = '<'
    · subst hc
      rw [count_cons, count_cons, ih]
      have hiff : ('<' :: pt <+: '<' :: boldR cs) ↔ ('<' :: pt <+: '<' :: cs) := by
        rw [List.cons_prefix_cons, List.cons_prefix_cons]
        constructor
        · rintro ⟨-, hp⟩
          exact ⟨rfl, boldR_pre_rev cs pt hlt hst hp⟩
        · rintro ⟨-, hp⟩
          obtain ⟨r, hr⟩ := hp
          refine ⟨rfl, ?_⟩
          rw [← hr, boldR_copy pt r (fun x hx hx2 => hst (hx2 ▸ hx))]
          exact List.prefix_append pt (boldR r)
      by_cases hpre : '<' :: pt <+: '<' :: cs
      · rw [if_pos hpre, if_pos (hiff.mpr hpre)]
      · rw [if_neg hpre, if_neg (fun hx => hpre (hiff.mp hx))]
    · rw [count_cons_ne '<' pt c _ hc, count_cons_ne '<' pt c _ hc, ih]
  | case4 =>
    have he : boldR ([] : List Char) = [] := by rw [boldR]
    rw [he]

/-- The italic replacement preserves the occurrence count of any tag-like
pattern prefix-incomparable with the inserted em tags. -/
lemma count_italR (pt : List Char) (hlt : '<' ∉ pt) (hst : '*' ∉ pt)
    (ho1 : ¬ "em>".data <+: pt) (ho2 : ¬ pt <+: "em>".data)
    (hc1 : ¬ "/em>".data <+: pt) (hc2 : ¬ pt <+: "/em>".data) :
    ∀ s : List Char, count ('<' :: pt) (italR s) = count ('<' :: pt) s := by
  have hstar : ∀ cs : List Char, count ('<' :: pt) ('*' :: cs) = count ('<' :: pt) cs :=
    fun cs => count_cons_ne '<' pt '*' cs (by decide)
  intro s
  induction s using italR.induct with
  | case1 rest x rest2 heq ih =>
    obtain ⟨y, hy1, hy2⟩ := fcItal_split [] rest x rest2 heq
    simp only [List.reverse_nil, List.nil_append] at hy1
    subst hy1
    have he : italR ('*' :: rest) =
        ('<' :: "em>".data) ++ x ++ ('<' :: "/em>".data) ++ italR rest2 := by
      rw [italR, heq]
    rw [he, List.append_assoc, List.append_assoc,
      count_seg_drop '<' pt "em>".data (by decide) ho1 ho2,
      show ('<' :: "/em>".data) ++ italR rest2 =
        '<' :: ("/em>".data ++ italR rest2) from rfl,
      count_append_split '<' pt '<' hlt x _,
      show ('<' :: ("/em>".data ++ italR rest2)) =
        ('<' :: "/em>".data) ++ italR rest2 from rfl,
      count_seg_drop '<' pt "/em>".data (by decide) hc1 hc2, ih,
      hstar, hy2, count_append_split '<' pt '*' hst x _, hstar]
  | case2 rest heq ih =>
    have he : italR ('*' :: rest) = '*' :: italR rest := by
      rw [italR, heq]
    rw [he]
    simp only [hstar]
    rw [ih]
  | case3 c cs h ih =>
    have he : italR (c :: cs) = c :: italR cs := by
      rw [italR]
      exact h
    rw [he]
    by_cases hc : c = '<'
    · subst hc
      rw [count_cons, count_cons, ih]
      have hiff : ('<' :: pt <+: '<' :: italR cs) ↔ ('<' :: pt <+: '<' :: cs) := by
        rw [List.cons_prefix_cons, List.cons_prefix_cons]
        constructor
        · rintro ⟨-, hp⟩
          exact ⟨rfl, italR_pre_rev cs pt hlt hst hp⟩
        · rintro ⟨-, hp⟩
          obtain ⟨r, hr⟩ := hp
          refine ⟨rfl, ?_⟩
          rw [← hr, italR_copy pt r (fun x hx hx2 => hst (hx2 ▸ hx))]
          exact List.prefix_append pt (italR r)
      by_cases hpre : '<' :: pt <+: '<' :: cs
      · rw [if_pos hpre, if_pos (hiff.mpr hpre)]
      · rw [if_neg hpre, if_neg (fun hx => hpre (hiff.mp hx))]
    · rw [count_cons_ne '<' pt c _ hc, count_cons_ne '<' pt c _ hc, ih]
  | case4 =>
    have he : italR ([] : List Char) = [] := by rw [italR]
    rw [he]

/-- The newline-to-br replacement preserves the occurrence count of any
tag-like pattern prefix-incomparable with the inserted br tag. -/
lemma count_brR (pt : List Char) (hlt : '<' ∉ pt) (hnl : '\n' ∉ pt)
    (ho1 : ¬ "br>".data <+: pt) (ho2 : ¬ pt <+: "br>".data) :
    ∀ s : List Char, count ('<' :: pt) (brR s) = count ('<' :: pt) s := by
  intro s
  induction s using brR.induct with
  | case1 cs ih =>
    have he : brR ('\n' :: cs) = ('<' :: "br>".data) ++ brR cs := by
      rw [brR]
      rfl
    rw [he, count_seg_drop '<' pt "br>".data (by decide) ho1 ho2, ih,
      count_cons_ne '<' pt '\n' cs (by decide)]
  | case2 c cs h ih =>
    have he : brR (c :: cs) = c :: brR cs := by
      rw [brR]
      exact h
    rw [he]
    by_cases hc : c = '<'
    · subst hc
      rw [count_cons, count_cons, ih]
      have hiff : ('<' :: pt <+: '<' :: brR cs) ↔ ('<' :: pt <+: '<' :: cs) := by
        rw [List.cons_prefix_cons, List.cons_prefix_cons]
        constructor
        · rintro ⟨-, hp⟩
          exact ⟨rfl, brR_pre_rev cs pt hlt hp⟩
        · rintro ⟨-, hp⟩
          obtain ⟨r, hr⟩ := hp
          refine ⟨rfl, ?_⟩
          rw [← hr, brR_copy pt r (fun x hx hx2 => hnl (hx2 ▸ hx))]
          exact List.prefix_append pt (brR r)
      by_cases hpre : '<' :: pt <+: '<' :: cs
      · rw [if_pos hpre, if_pos (hiff.mpr hpre)]
      · rw [if_neg hpre, if_neg (fun hx => hpre (hiff.mp hx))]
    · rw [count_cons_ne '<' pt c _ hc, count_cons_ne '<' pt c _ hc, ih]
  | case3 =>
    have he : brR ([] : List Char) = [] := by rw [brR]
    rw [he]

/-- Appending replicated closing tags adds exactly the replicated count. -/
lemma count_app_flat (pt : List Char) (hlt : '<' ∉ pt) :
    ∀ (k : Nat) (a : List Char),
      count ('<' :: pt) (a ++ (List.replicate k closeDiv).flatten) =
        count ('<' :: pt) a + k * count ('<' :: pt) closeDiv := by
  intro k
  induction k with
  | zero => intro a; simp
  | succ k ih =>
    intro a
    rw [List.replicate_succ, List.flatten_cons, ← List.append_assoc, ih (a ++ closeDiv),
      show a ++ closeDiv = a ++ '<' :: "/div>".data from rfl,
      count_append_split '<' pt '<' hlt a _,
      show ('<' :: "/div>".data : List Char) = closeDiv from rfl, Nat.succ_mul]
    omega

/-- After the cleanup step, closing tags are at least as frequent as opening
tags, in the leftmost non-overlapping counting and hence in the full count. -/
lemma divCleanup_balance (s : List Char) :
    count openDiv (divCleanup s) ≤ count closeDiv (divCleanup s) := by
  have ho : countD openDiv s = count openDiv s :=
    countD_eq_count '<' "div class=\"solution-step\">".data (by decide) s
  have hcd : countD closeDiv s = count closeDiv s :=
    countD_eq_count '<' "/div>".data (by decide) s
  rw [divCleanup]
  by_cases h : countD closeDiv s < countD openDiv s
  · rw [if_pos h]
    have h1 : count openDiv
          (s ++ (List.replicate (countD openDiv s - countD closeDiv s) closeDiv).flatten) =
        count openDiv s +
          (countD openDiv s - countD closeDiv s) * count openDiv closeDiv :=
      count_app_flat "div class=\"solution-step\">".data (by decide) _ s
    have h2 : count closeDiv
          (s ++ (List.replicate (countD openDiv s - countD closeDiv s) closeDiv).flatten) =
        count closeDiv s +
          (countD openDiv s - countD closeDiv s) * count closeDiv closeDiv :=
      count_app_flat "/div>".data (by decide) _ s
    have h3 : count openDiv closeDiv = 0 := by decide
    have h4 : count closeDiv closeDiv = 1 := by decide
    rw [h1, h2, h3, h4]
    omega
  · rw [if_neg h]
    omega

/-- Claim C10: for every input string, the output of MathRenderer\x27s
processContent contains at least as many `</div>` substrings as
`<div class="solution-step">` substrings: the cleanup step appends exactly
the missing closers, and the subsequent bold, italic and newline
replacements preserve both substring counts, for every math pre-pass. -/
theorem processContent_divs_balanced (mathStages : List Char → List Char)
    (input : List Char) :
    count openDiv (processContent mathStages input) ≤
      count closeDiv (processContent mathStages input) := by
  have hbrO : ∀ t, count openDiv (brR t) = count openDiv t :=
    count_brR "div class=\"solution-step\">".data (by decide) (by decide)
      (by decide) (by decide)
  have hbrC : ∀ t, count closeDiv (brR t) = count closeDiv t :=
    count_brR "/div>".data (by decide) (by decide) (by decide) (by decide)
  have hitO : ∀ t, count openDiv (italR t) = count openDiv t :=
    count_italR "div class=\"solution-step\">".data (by decide) (by decide)
      (by decide) (by decide) (by decide) (by decide)
  have hitC : ∀ t, count closeDiv (italR t) = count closeDiv t :=
    count_italR "/div>".data (by decide) (by decide) (by decide) (by decide)
      (by decide) (by decide)
  have hboO : ∀ t, count openDiv (boldR t) = count openDiv t :=
    count_boldR "div class=\"solution-step\">".data (by decide) (by decide)
      (by decide) (by decide) (by decide) (by decide)
  have hboC : ∀ t, count closeDiv (boldR t) = count closeDiv t :=
    count_boldR "/div>".data (by decide) (by decide) (by decide) (by decide)
      (by decide) (by decide)
  rw [processContent, hbrO, hitO, hboO, hbrC, hitC, hboC]
  exact divCleanup_balance _

end The1Note
